import Mathlib

/-!
Verification of the cefrpy CEFR binary-index library.

The development shallowly embeds the Python sources `CEFRDataValidator.py`,
`CEFRDataReader.py` and `CEFRDataProcessor.py`:

* the partition table (`wlp`, an array of unsigned 32-bit offsets) and the
  data array (a byte buffer) are modelled as `List ℕ`;
* bounds-checked element access (which raises `IndexError` in the source)
  returns `Option`/`Except`, with `none`/`.error ()` modelling a raised
  exception;
* Python floats appearing in the public API (`level / 50 + 1`) are modelled
  by exact rationals; every float produced by the source is obtained by one
  division of small integers, and two such values are compared only through
  the same decoding function, so the rational model is observationally
  faithful for the properties treated here;
* `round(a / n)` on nonnegative integers `a`, `n` is modelled by
  `pyRoundDiv` (round half to even).  For the magnitudes that occur
  (`a ≤ 255 * segment size`, `n ≥ 1`) IEEE double division is exact on
  ties and closer than the distance to the nearest tie otherwise, so
  Python's float `round` agrees with the exact rational rounding;
* Python `//` and `%` are floor division and floor modulus, i.e. `Int.fdiv`
  and `Int.fmod` (equal to `Int.ediv`/`Int.emod` for positive divisors);
* generators are modelled as materialized lists and the stdlib `heapq`
  (external to the repository) by its documented contract: a priority queue
  whose pop returns a least element, modelled as an ordered insertion list.
-/

/-- ASCII code of the first lowercase letter. -/
def asciiA : ℕ := 97

/-- ASCII code of the last lowercase letter. -/
def asciiZ : ℕ := 122

/-- Membership in `VALID_WORD_CHARACTERS = set(ascii_lowercase)` of
`CEFRDataValidator.py`, on byte values. -/
def is_lowercase (c : ℕ) : Bool := decide (asciiA ≤ c) && decide (c ≤ asciiZ)

/-- Maximum position tag id (`MAX_POS_TAG_ID = POSTag.get_total_tags() - 1`);
`POSTag` has 28 members (`CC = 0` … `WRB = 27`). -/
def MAX_POS_TAG_ID : ℕ := 28 - 1

/-- Maximum level value admitted by the validator, exactly as written in the
source: `MAX_LEVEL_VALUE = 6 * 50`. -/
def MAX_LEVEL_VALUE : ℕ := 6 * 50

/-- In-memory state owned by `CEFRDataReader`: the word-length partition
table `_wlp` and the data array `_data_array`. -/
structure CEFRData where
  wlp : List ℕ
  data : List ℕ
deriving DecidableEq, Repr

/-- `CEFRDataReader.get_data_array_value_at`: bounds-checked byte access;
`none` models the raised `IndexError`. -/
def dataAt (data : List ℕ) (i : ℤ) : Option ℕ :=
  if 0 ≤ i then data[i.toNat]? else none

/-- `CEFRDataReader.get_wlp_value_at`: bounds-checked partition-table access;
`none` models the raised `IndexError`. -/
def wlpAt (st : CEFRData) (i : ℤ) : Option ℕ :=
  if 0 ≤ i then st.wlp[i.toNat]? else none

/-- Python `range(start, stop, step)` as a list of integers (empty for
`step = 0`, which Python rejects; never called that way here). -/
def pyRangeZ (start stop step : ℤ) : List ℤ :=
  if 0 < step then
    (List.range ((stop - start + step - 1).fdiv step).toNat).map
      (fun k : ℕ => start + step * (k : ℤ))
  else if step < 0 then
    (List.range ((start - stop - step - 1).fdiv (-step)).toNat).map
      (fun k : ℕ => start + step * (k : ℤ))
  else []

/-- Read `count` consecutive bytes of the data array starting at position
`i`; `none` models an `IndexError` on any of the reads.  This is the word
extraction underlying `_unpack_word_in_data_array` (characters are kept as
byte values rather than a string). -/
def wordAt (data : List ℕ) (i : ℤ) : ℕ → Option (List ℕ)
  | 0 => some []
  | n + 1 =>
    match dataAt data i with
    | none => none
    | some c =>
      match wordAt data (i + 1) n with
      | none => none
      | some rest => some (c :: rest)

/-! ### Validator (`CEFRDataValidator.py`) -/

/-- `is_wlp_length_valid`: `2 <= wlp_length <= 255`. -/
def is_wlp_length_valid (n : ℕ) : Bool := decide (2 ≤ n ∧ n ≤ 255)

/-- The consecutive-pair walk of `is_wlp_array_valid`: `bs` is the value of
`block_size` before the iteration's `block_size += 1`, `prev` the previous
table entry. -/
def wlpWalk (bs prev : ℕ) : List ℕ → Bool
  | [] => true
  | e :: rest =>
    if e < prev then false
    else if (e - prev) % (bs + 1) ≠ 0 then false
    else wlpWalk (bs + 1) e rest

/-- `is_wlp_array_valid`: length check, then the consecutive-pair walk with
`block_size` starting at 2 and incremented once per pair. -/
def is_wlp_array_valid (wlp : List ℕ) : Bool :=
  if !is_wlp_length_valid wlp.length then false
  else
    match wlp with
    | [] => false
    | h :: t => wlpWalk 2 h t

/-- `validate_data_block`'s character loop: check `count` bytes from
position `i` against the lowercase alphabet; `none` models `IndexError`. -/
def charsValid (data : List ℕ) : ℤ → ℕ → Option Bool
  | _, 0 => some true
  | i, n + 1 =>
    match dataAt data i with
    | none => none
    | some c =>
      if !is_lowercase c then some false
      else charsValid data (i + 1) n

/-- `validate_data_block(data, start_pos, block_length)`.  The source reads
the category byte at `start_pos + word_len` and the level byte one past it
(via the final value of the loop variable `i`); `word_len = 0` makes the
source raise (`i` unbound), modelled by `none`. -/
def validate_data_block (data : List ℕ) (start_pos : ℤ) (block_length : ℕ) :
    Option Bool :=
  let word_len := block_length - 2
  if word_len = 0 then none
  else
    match charsValid data start_pos word_len with
    | none => none
    | some false => some false
    | some true =>
      match dataAt data (start_pos + word_len) with
      | none => none
      | some p =>
        if MAX_POS_TAG_ID < p then some false
        else
          match dataAt data (start_pos + word_len + 1) with
          | none => none
          | some lvl =>
            if MAX_LEVEL_VALUE < lvl then some false
            else some true

/-- The block loop of `is_data_valid` over one segment's block-start
positions. -/
def blocksValidFrom (data : List ℕ) (bs : ℕ) : List ℤ → Option Bool
  | [] => some true
  | p :: rest =>
    match validate_data_block data p bs with
    | none => none
    | some false => some false
    | some true => blocksValidFrom data bs rest

/-- The segment loop of `is_data_valid`: `bs` is `block_size` before the
iteration's `block_size += 1`, `prev` the previous table entry. -/
def segsValid (data : List ℕ) : ℕ → ℕ → List ℕ → Option Bool
  | _, _, [] => some true
  | bs, prev, e :: rest =>
    match blocksValidFrom data (bs + 1) (pyRangeZ prev e (bs + 1)) with
    | none => none
    | some false => some false
    | some true => segsValid data (bs + 1) e rest

/-- `is_data_valid(wlp_array, data)`. -/
def is_data_valid (wlp data : List ℕ) : Option Bool :=
  if !is_wlp_array_valid wlp then some false
  else
    match wlp with
    | [] => none
    | h :: t =>
      if data.length < (h :: t).getLast (List.cons_ne_nil h t) then some false
      else segsValid data 2 h t

/-! ### Level decoding (`CEFRDataProcessor.byte_int_level_to_float`) -/

/-- `byte_int_level_to_float`: `level / 50 + 1` for `0 ≤ level ≤ 250`,
`ValueError` (modelled by `.error ()`) otherwise.  The float result is
modelled by the exact rational. -/
def byte_int_level_to_float (level : ℤ) : Except Unit ℚ :=
  if 0 ≤ level ∧ level ≤ 250 then .ok ((level : ℚ) / 50 + 1)
  else .error ()

/-- Python `round(a / n)` for nonnegative integers: round half to even. -/
def pyRoundDiv (a n : ℕ) : ℕ :=
  let q := a / n
  let r := a % n
  if 2 * r < n then q
  else if n < 2 * r then q + 1
  else if q % 2 = 0 then q else q + 1

/-! ### Exact-key binary search (`CEFRDataProcessor._get_first_word_match_pos`) -/

/-- The inner character loop of the binary search: compare the query bytes
`w` against the data bytes starting at `i`, returning `.lt` when the data
byte is smaller (the source then moves `l` up), `.gt` when larger, `.eq` on
a full match; `none` models an `IndexError` on a read. Reads stop at the
first difference, as in the source. -/
def cmpWordAt (data : List ℕ) : List ℕ → ℤ → Option Ordering
  | [], _ => some .eq
  | c1 :: rest, i =>
    match dataAt data i with
    | none => none
    | some c2 =>
      if c2 < c1 then some .lt
      else if c1 < c2 then some .gt
      else cmpWordAt data rest (i + 1)

/-- The `while l <= r` loop of `_get_first_word_match_pos`, with an explicit
fuel argument (the wrapper supplies fuel that provably suffices, see
`searchLoop_fuel`); the first component records the block positions `m`
probed, `.error ()` models a raised `IndexError`, and `.ok (-1)` the
not-found return value. -/
def searchLoop (data w : List ℕ) : ℕ → ℤ → ℤ → List ℤ × Except Unit ℤ
  | 0, _, _ => ([], .error ())
  | fuel + 1, l, r =>
    if l ≤ r then
      let bs : ℤ := (w.length : ℤ) + 2
      let m := ((r - l).fdiv bs).fdiv 2 * bs + l
      match cmpWordAt data w m with
      | none => ([m], .error ())
      | some .eq => ([m], .ok m)
      | some .lt =>
        let p := searchLoop data w fuel (m + bs) r
        (m :: p.1, p.2)
      | some .gt =>
        let p := searchLoop data w fuel l (m - bs)
        (m :: p.1, p.2)
    else ([], .ok (-1))

/-- `_get_first_word_match_pos(word_packed)`: look up the segment bounds,
then run the binary search. The trace of probed positions is kept in the
first component. -/
def get_first_word_match_pos (st : CEFRData) (w : List ℕ) :
    List ℤ × Except Unit ℤ :=
  match wlpAt st ((w.length : ℤ) - 1), wlpAt st (w.length : ℤ) with
  | some l, some r => searchLoop st.data w (r - l + 1) (l : ℤ) (r : ℤ)
  | _, _ => ([], .error ())

/-- `CEFRDataProcessor.is_word_len_valid`: `0 < word_len < len(_wlp)`. -/
def is_word_len_valid (st : CEFRData) (n : ℕ) : Bool :=
  decide (0 < n) && decide (n < st.wlp.length)

/-- `CEFRDataProcessor.is_word_in_database`. -/
def is_word_in_database (st : CEFRData) (w : List ℕ) : Except Unit Bool :=
  if !is_word_len_valid st w.length then .ok false
  else
    match (get_first_word_match_pos st w).2 with
    | .error e => .error e
    | .ok p => .ok (decide (p ≠ -1))

/-! ### Neighbor scans (`_get_int_word_level_for_pos_id`, `_get_word_data_range`) -/

/-- The inner `for c1 in word_packed` loop of the scan loops: equality-only
comparison of the query bytes against the data bytes at `i`, stopping at the
first difference; `none` models `IndexError`. -/
def matchWordAt (data : List ℕ) : List ℕ → ℤ → Option Bool
  | [], _ => some true
  | c1 :: rest, i =>
    match dataAt data i with
    | none => none
    | some c2 =>
      if c2 ≠ c1 then some false
      else matchWordAt data rest (i + 1)

/-- Backward scan of `_get_int_word_level_for_pos_id` taken when the landed
category is greater than the requested one: step block-by-block towards the
segment start, returning the level on an exact category match and otherwise
accumulating `(founded_pos, level_accumulator)`. -/
def scanBackCheck (data w : List ℕ) (pos_tag_id : ℕ) (lo : ℤ) :
    ℕ → ℤ → ℕ → ℕ → Except Unit (Option ℕ × ℕ × ℕ)
  | 0, _, _, _ => .error ()
  | fuel + 1, m, founded, acc =>
    let bs : ℤ := (w.length : ℤ) + 2
    let m' := m - bs
    if m' < lo then .ok (none, founded, acc)
    else
      match matchWordAt data w m' with
      | none => .error ()
      | some false => .ok (none, founded, acc)
      | some true =>
        match dataAt data (m' + w.length), dataAt data (m' + w.length + 1) with
        | some p, some level =>
          if p = pos_tag_id then .ok (some level, founded, acc)
          else scanBackCheck data w pos_tag_id lo fuel m' (founded + 1) (acc + level)
        | _, _ => .error ()

/-- Forward scan of `_get_int_word_level_for_pos_id` taken when the landed
category is smaller than the requested one. -/
def scanFwdCheck (data w : List ℕ) (pos_tag_id : ℕ) (hi : ℤ) :
    ℕ → ℤ → ℕ → ℕ → Except Unit (Option ℕ × ℕ × ℕ)
  | 0, _, _, _ => .error ()
  | fuel + 1, m, founded, acc =>
    let bs : ℤ := (w.length : ℤ) + 2
    let m' := m + bs
    if hi ≤ m' then .ok (none, founded, acc)
    else
      match matchWordAt data w m' with
      | none => .error ()
      | some false => .ok (none, founded, acc)
      | some true =>
        match dataAt data (m' + w.length), dataAt data (m' + w.length + 1) with
        | some p, some level =>
          if p = pos_tag_id then .ok (some level, founded, acc)
          else scanFwdCheck data w pos_tag_id hi fuel m' (founded + 1) (acc + level)
        | _, _ => .error ()

/-- Second backward scan of `_get_int_word_level_for_pos_id` (the
accumulate-only loop run after the forward scan): no category check, only
the level byte is read. -/
def scanBackAcc (data w : List ℕ) (lo : ℤ) :
    ℕ → ℤ → ℕ → ℕ → Except Unit (ℕ × ℕ)
  | 0, _, _, _ => .error ()
  | fuel + 1, m, founded, acc =>
    let bs : ℤ := (w.length : ℤ) + 2
    let m' := m - bs
    if m' < lo then .ok (founded, acc)
    else
      match matchWordAt data w m' with
      | none => .error ()
      | some false => .ok (founded, acc)
      | some true =>
        match dataAt data (m' + w.length + 1) with
        | some level => scanBackAcc data w lo fuel m' (founded + 1) (acc + level)
        | none => .error ()

/-- `_get_int_word_level_for_pos_id(word_packed, pos_tag_id,
avg_level_not_found_pos)`: binary search, then the category-disambiguating
neighbor scans; `.ok none` models the implicit `None` return. -/
def get_int_word_level_for_pos_id (st : CEFRData) (w : List ℕ)
    (pos_tag_id : ℕ) (avg : Bool) : Except Unit (Option ℕ) :=
  match (get_first_word_match_pos st w).2 with
  | .error e => .error e
  | .ok first_match =>
    if first_match = -1 then .ok none
    else
      let L := w.length
      let i := first_match + L
      match dataAt st.data i, dataAt st.data (i + 1) with
      | some p, some level =>
        if p = pos_tag_id then .ok (some level)
        else
          match wlpAt st ((L : ℤ) - 1), wlpAt st (L : ℤ) with
          | some lo, some hi =>
            let fuelB := (first_match - lo).toNat + 1
            if pos_tag_id < p then
              match scanBackCheck st.data w pos_tag_id lo fuelB first_match 1 level with
              | .error e => .error e
              | .ok (some lvl, _, _) => .ok (some lvl)
              | .ok (none, founded, acc) =>
                if avg then .ok (some (pyRoundDiv acc founded)) else .ok none
            else
              let fuelF := ((hi : ℤ) - first_match).toNat + 1
              match scanFwdCheck st.data w pos_tag_id hi fuelF first_match 1 level with
              | .error e => .error e
              | .ok (some lvl, _, _) => .ok (some lvl)
              | .ok (none, founded, acc) =>
                match scanBackAcc st.data w lo fuelB first_match founded acc with
                | .error e => .error e
                | .ok (founded2, acc2) =>
                  if avg then .ok (some (pyRoundDiv acc2 founded2)) else .ok none
          | _, _ => .error ()
      | _, _ => .error ()

/-- `get_word_level_for_pos_id(word, pos_tag_id, avg_level_not_found_pos)`:
length validity check, then the packed-level lookup decoded to a (rational)
level value. -/
def get_word_level_for_pos_id (st : CEFRData) (w : List ℕ)
    (pos_tag_id : ℕ) (avg : Bool) : Except Unit (Option ℚ) :=
  if !is_word_len_valid st w.length then .ok none
  else
    match get_int_word_level_for_pos_id st w pos_tag_id avg with
    | .error e => .error e
    | .ok none => .ok none
    | .ok (some lvl) =>
      match byte_int_level_to_float (lvl : ℤ) with
      | .error e => .error e
      | .ok q => .ok (some q)

/-- The inner character loop of `_get_word_data_range`, additionally
returning the final value of the loop variable `i` (which the source reads
after the loop). -/
def matchWordAtI (data : List ℕ) : List ℕ → ℤ → Option (Bool × ℤ)
  | [], i => some (true, i)
  | c1 :: rest, i =>
    match dataAt data i with
    | none => none
    | some c2 =>
      if c2 ≠ c1 then some (false, i)
      else matchWordAtI data rest (i + 1)

/-- Backward while-loop of `_get_word_data_range`: returns the final values
of `m` and `i`. -/
def wdrBack (data w : List ℕ) (lo : ℤ) :
    ℕ → ℤ → ℤ → Except Unit (ℤ × ℤ)
  | 0, _, _ => .error ()
  | fuel + 1, m, i =>
    let bs : ℤ := (w.length : ℤ) + 2
    let m' := m - bs
    if m' < lo then .ok (m', i)
    else
      match matchWordAtI data w m' with
      | none => .error ()
      | some (false, i') => .ok (m', i')
      | some (true, i') => wdrBack data w lo fuel m' i'

/-- Forward while-loop of `_get_word_data_range`: returns the final values
of `m` and `i`. -/
def wdrFwd (data w : List ℕ) (hi : ℤ) :
    ℕ → ℤ → ℤ → Except Unit (ℤ × ℤ)
  | 0, _, _ => .error ()
  | fuel + 1, m, i =>
    let bs : ℤ := (w.length : ℤ) + 2
    let m' := m + bs
    if hi ≤ m' then .ok (m', i)
    else
      match matchWordAtI data w m' with
      | none => .error ()
      | some (false, i') => .ok (m', i')
      | some (true, i') => wdrFwd data w hi fuel m' i'

/-- `_get_word_data_range(word)`: the `(start, stop, step)` triple of the
returned Python `range`, or `none` for the `None` returns. -/
def get_word_data_range (st : CEFRData) (w : List ℕ) :
    Except Unit (Option (ℤ × ℤ × ℤ)) :=
  if !is_word_len_valid st w.length then .ok none
  else
    match (get_first_word_match_pos st w).2 with
    | .error e => .error e
    | .ok first_match =>
      if first_match = -1 then .ok none
      else
        let L := w.length
        let bs : ℤ := (L : ℤ) + 2
        match wlpAt st ((L : ℤ) - 1), wlpAt st (L : ℤ) with
        | some lo, some hi =>
          match wdrBack st.data w lo ((first_match - lo).toNat + 1)
              first_match (first_match + L) with
          | .error e => .error e
          | .ok (mB, iB) =>
            let start_range := mB + bs + L
            match wdrFwd st.data w hi (((hi : ℤ) - first_match).toNat + 1)
                first_match iB with
            | .error e => .error e
            | .ok (_, iF) =>
              let end_range := iF - bs + L + 1
              .ok (some (start_range, end_range, bs))
        | _, _ => .error ()

/-- Loop body of `get_all_pos_for_word`: collect the category byte at each
position of the data range. -/
def collectPos (data : List ℕ) : List ℤ → Except Unit (List ℕ)
  | [] => .ok []
  | i :: rest =>
    match dataAt data i with
    | none => .error ()
    | some p =>
      match collectPos data rest with
      | .error e => .error e
      | .ok l => .ok (p :: l)

/-- `get_all_pos_for_word(word)`. -/
def get_all_pos_for_word (st : CEFRData) (w : List ℕ) : Except Unit (List ℕ) :=
  match get_word_data_range st w with
  | .error e => .error e
  | .ok none => .ok []
  | .ok (some (s, e, step)) => collectPos st.data (pyRangeZ s e step)

/-- Python dict assignment `result[pos_tag] = v` on an insertion-ordered
association list. -/
def dictInsert (l : List (ℕ × ℚ)) (k : ℕ) (v : ℚ) : List (ℕ × ℚ) :=
  if l.any (fun p => p.1 == k) then
    l.map (fun p => if p.1 == k then (k, v) else p)
  else l ++ [(k, v)]

/-- Loop body of `get_pos_level_dict_for_word`. -/
def buildPosLevelDict (data : List ℕ) :
    List ℤ → List (ℕ × ℚ) → Except Unit (List (ℕ × ℚ))
  | [], acc => .ok acc
  | i :: rest, acc =>
    match dataAt data i, dataAt data (i + 1) with
    | some p, some lvl =>
      match byte_int_level_to_float (lvl : ℤ) with
      | .error e => .error e
      | .ok q => buildPosLevelDict data rest (dictInsert acc p q)
    | _, _ => .error ()

/-- `get_pos_level_dict_for_word(word)`: insertion-ordered association list
modelling the returned dict. -/
def get_pos_level_dict_for_word (st : CEFRData) (w : List ℕ) :
    Except Unit (List (ℕ × ℚ)) :=
  match get_word_data_range st w with
  | .error e => .error e
  | .ok none => .ok []
  | .ok (some (s, e, step)) => buildPosLevelDict st.data (pyRangeZ s e step) []

/-! ### Segment traversal, word enumeration and counting -/

/-- `get_max_word_len()`: `len(_wlp) - 1`. -/
def get_max_word_len (st : CEFRData) : ℕ := st.wlp.length - 1

/-- `_get_word_yield_start_block_range(word_length, reverse_order)`: the
list of block-start positions of the length segment, forward or backward. -/
def get_word_yield_start_block_range (st : CEFRData) (L : ℕ) (rev : Bool) :
    Except Unit (List ℤ) :=
  match wlpAt st ((L : ℤ) - 1), wlpAt st (L : ℤ) with
  | some s, some e =>
    let bs : ℤ := (L : ℤ) + 2
    if rev then .ok (pyRangeZ ((e : ℤ) - bs) ((s : ℤ) - bs) (-bs))
    else .ok (pyRangeZ (s : ℤ) (e : ℤ) bs)
  | _, _ => .error ()

/-- Dedup loop of `yield_words_with_length`: unpack each block's word and
yield it when it differs from the previously yielded one (`last_word`
starts as `None`). -/
def ywlGo (data : List ℕ) (L : ℕ) :
    List ℤ → Option (List ℕ) → Except Unit (List (List ℕ))
  | [], _ => .ok []
  | i :: rest, last =>
    match wordAt data i L with
    | none => .error ()
    | some word =>
      if some word ≠ last then
        match ywlGo data L rest (some word) with
        | .error e => .error e
        | .ok out => .ok (word :: out)
      else ywlGo data L rest last

/-- `yield_words_with_length(word_length, reverse_order)`, materialized. -/
def yield_words_with_length (st : CEFRData) (L : ℕ) (rev : Bool) :
    Except Unit (List (List ℕ)) :=
  if !is_word_len_valid st L then .ok []
  else
    match get_word_yield_start_block_range st L rev with
    | .error e => .error e
    | .ok blocks => ywlGo st.data L blocks none

/-- The inner `for j in range(word_length)` loop of
`get_word_count_for_length`: position of the first byte at which the block
at `i` differs from `last_word`, or `none` when the block's word equals
`last_word`. -/
def scanDiff (data : List ℕ) (i : ℤ) : List ℕ → ℕ → Except Unit (Option ℕ)
  | [], _ => .ok none
  | c :: rest, j =>
    match dataAt data (i + j) with
    | none => .error ()
    | some cur =>
      if cur ≠ c then .ok (some j)
      else scanDiff data i rest (j + 1)

/-- Block loop of `get_word_count_for_length`: on a difference at byte `j`,
the source overwrites `last_word[j:]` with the current block's bytes and
increments the counter. -/
def gwclGo (data : List ℕ) (L : ℕ) :
    List ℤ → List ℕ → ℕ → Except Unit ℕ
  | [], _, counter => .ok counter
  | i :: rest, last, counter =>
    match scanDiff data i last 0 with
    | .error e => .error e
    | .ok none => gwclGo data L rest last counter
    | .ok (some j) =>
      match wordAt data (i + j) (L - j) with
      | none => .error ()
      | some tailBytes =>
        gwclGo data L rest (last.take j ++ tailBytes) (counter + 1)

/-- `get_word_count_for_length(word_length)`: walk the segment once,
counting word changes (`last_word` starts as `bytearray(word_length)`,
i.e. zeros). -/
def get_word_count_for_length (st : CEFRData) (L : ℕ) : Except Unit ℕ :=
  if !is_word_len_valid st L then .ok 0
  else
    match get_word_yield_start_block_range st L false with
    | .error e => .error e
    | .ok blocks => gwclGo st.data L blocks (List.replicate L 0) 0

/-- Accumulation loop of `get_total_words`. -/
def sumCounts (st : CEFRData) : List ℕ → Except Unit ℕ
  | [] => .ok 0
  | L :: rest =>
    match get_word_count_for_length st L with
    | .error e => .error e
    | .ok c =>
      match sumCounts st rest with
      | .error e => .error e
      | .ok s => .ok (c + s)

/-- `get_total_words()`: sum of the per-length word counts over lengths
`1 .. max_word_len`. -/
def get_total_words (st : CEFRData) : Except Unit ℕ :=
  sumCounts st (List.range' 1 (get_max_word_len st))

/-! ### Whole-vocabulary merge (`_yield_all_data` for `yield_words`) -/

/-- Strict lexicographic comparison of byte strings, as Python compares the
yielded word strings (a strict prefix is smaller). -/
def lexLtB : List ℕ → List ℕ → Bool
  | [], [] => false
  | [], _ :: _ => true
  | _ :: _, [] => false
  | a :: as, b :: bs =>
    if a < b then true
    else if b < a then false
    else lexLtB as bs

/-- Ordered insertion into the priority-queue model: the stdlib `heapq`
(external to this repository) is modelled by its documented contract — a
min-priority queue whose pop returns a least element — realized as a list
kept sorted by the strict order `ltb`.  In `_yield_all_data` the queue
holds `(word, generator index)` pairs whose words are pairwise distinct
(one generator per word length), so tie order is immaterial. -/
def pqInsert (ltb : List ℕ → List ℕ → Bool) (x : List ℕ × ℕ) :
    List (List ℕ × ℕ) → List (List ℕ × ℕ)
  | [] => [x]
  | y :: rest =>
    if ltb y.1 x.1 then y :: pqInsert ltb x rest
    else x :: y :: rest

/-- Initial fill of the queue: the head of each non-exhausted generator is
pushed together with its index (`for i, generator in enumerate(...)`). -/
def kmergeFill (ltb : List ℕ → List ℕ → Bool) :
    ℕ → List (List (List ℕ)) → List (List ℕ × ℕ)
  | _, [] => []
  | idx, [] :: rest => kmergeFill ltb (idx + 1) rest
  | idx, (w :: _) :: rest => pqInsert ltb (w, idx) (kmergeFill ltb (idx + 1) rest)

/-- Specification-side view of the initial heap fill: the pending
`(head word, generator index)` pairs of the non-exhausted generators, in
generator order (to be compared with `kmergeFill` up to permutation). -/
def fillSpec : ℕ → List (List (List ℕ)) → List (List ℕ × ℕ)
  | _, [] => []
  | idx, [] :: rest => fillSpec (idx + 1) rest
  | idx, (w :: _) :: rest => (w, idx) :: fillSpec (idx + 1) rest

/-- Main merge loop of `_yield_all_data` (lexicographic mode): pop the least
element, yield it, and refill from the generator it came from.  `streams`
holds each generator's not-yet-pushed remainder; the fuel supplied by
`kmerge` provably suffices. -/
def kmergeGo (ltb : List ℕ → List ℕ → Bool) :
    ℕ → List (List (List ℕ)) → List (List ℕ × ℕ) → List (List ℕ)
  | _, _, [] => []
  | 0, _, _ => []
  | fuel + 1, streams, (w, gi) :: heapRest =>
    match streams[gi]? with
    | none => w :: kmergeGo ltb fuel streams heapRest
    | some [] => w :: kmergeGo ltb fuel streams heapRest
    | some (x :: xs) =>
      w :: kmergeGo ltb fuel (streams.set gi xs) (pqInsert ltb (x, gi) heapRest)

/-- K-way merge of the per-length word generators. -/
def kmerge (ltb : List ℕ → List ℕ → Bool) (streams : List (List (List ℕ))) :
    List (List ℕ) :=
  kmergeGo ltb ((streams.map List.length).sum + 1)
    (streams.map (List.drop 1)) (kmergeFill ltb 0 streams)

/-- Materialize the per-length generators
`[yield_method_with_word_length(i, reverse_order) for i in range(1, max+1)]`. -/
def gatherStreams (st : CEFRData) (rev : Bool) :
    List ℕ → Except Unit (List (List (List ℕ)))
  | [] => .ok []
  | L :: rest =>
    match yield_words_with_length st L rev with
    | .error e => .error e
    | .ok s =>
      match gatherStreams st rev rest with
      | .error e => .error e
      | .ok ss => .ok (s :: ss)

/-- Concatenation path of `_yield_all_data` (`word_lenght_sort = True`). -/
def concatYields (st : CEFRData) (rev : Bool) :
    List ℕ → Except Unit (List (List ℕ))
  | [] => .ok []
  | L :: rest =>
    match yield_words_with_length st L rev with
    | .error e => .error e
    | .ok s =>
      match concatYields st rev rest with
      | .error e => .error e
      | .ok out => .ok (s ++ out)

/-- `yield_words(reverse_order, word_lenght_sort)`: either per-length
concatenation, or the lazy k-way heap merge (reversed comparisons are
obtained through `HeapqReverseDataWrapper`, modelled by flipping the
comparator). -/
def yield_words (st : CEFRData) (reverse_order word_lenght_sort : Bool) :
    Except Unit (List (List ℕ)) :=
  let max_word_len := get_max_word_len st
  if word_lenght_sort then
    concatYields st reverse_order
      (if reverse_order then (List.range' 1 max_word_len).reverse
       else List.range' 1 max_word_len)
  else
    match gatherStreams st reverse_order (List.range' 1 max_word_len) with
    | .error e => .error e
    | .ok streams =>
      .ok (kmerge
        (if reverse_order then fun a b => lexLtB b a else lexLtB) streams)

/-! ### Segment views used to state the sortedness hypotheses -/

/-- Start offset of the length-`L` segment (`wlp[L-1]`). -/
def segLo (st : CEFRData) (L : ℕ) : ℕ := st.wlp.getD (L - 1) 0

/-- End offset of the length-`L` segment (`wlp[L]`). -/
def segHi (st : CEFRData) (L : ℕ) : ℕ := st.wlp.getD L 0

/-- Number of blocks in the length-`L` segment. -/
def segCount (st : CEFRData) (L : ℕ) : ℕ :=
  (segHi st L - segLo st L) / (L + 2)

/-- Start position of block `k` of the length-`L` segment. -/
def segPos (st : CEFRData) (L : ℕ) (k : ℕ) : ℤ :=
  (segLo st L : ℤ) + ((L : ℤ) + 2) * k

/-- Word bytes of block `k` of the length-`L` segment. -/
def blockWord (st : CEFRData) (L : ℕ) (k : ℕ) : List ℕ :=
  (wordAt st.data (segPos st L k) L).getD []

/-- Category byte of block `k` of the length-`L` segment. -/
def blockCat (st : CEFRData) (L : ℕ) (k : ℕ) : ℕ :=
  (dataAt st.data (segPos st L k + L)).getD 0

/-- Level byte of block `k` of the length-`L` segment. -/
def blockLevel (st : CEFRData) (L : ℕ) (k : ℕ) : ℕ :=
  (dataAt st.data (segPos st L k + L + 1)).getD 0

/-- Structural well-formedness of the length-`L` segment, together with the
data-model sort invariant assumed by the ordering claims: the segment lies
inside the data array, splits evenly into blocks, every block's word is
readable and lowercase, and block words are (weakly) ascending — the
consequence on word bytes of the spec's "sorted ascending by (word bytes,
category id)". -/
def SegmentWF (st : CEFRData) (L : ℕ) : Prop :=
  segLo st L ≤ segHi st L ∧
  (segHi st L - segLo st L) % (L + 2) = 0 ∧
  segHi st L ≤ st.data.length ∧
  (∀ k, k < segCount st L → (wordAt st.data (segPos st L k) L).isSome = true) ∧
  (∀ k, k < segCount st L → ∀ c ∈ blockWord st L k, is_lowercase c = true) ∧
  (∀ k, k < segCount st L - 1 →
    lexLtB (blockWord st L (k + 1)) (blockWord st L k) = false)

instance (st : CEFRData) (L : ℕ) : Decidable (SegmentWF st L) := by
  unfold SegmentWF
  infer_instance

/-- Strict lexicographic order on byte strings, as a proposition. -/
def lexLt (a b : List ℕ) : Prop := lexLtB a b = true

instance (a b : List ℕ) : Decidable (lexLt a b) := by
  unfold lexLt
  infer_instance

/-- Specification-side consecutive deduplication, the behaviour of the
`last_word` filter in `yield_words_with_length`. -/
def dedupCons : Option (List ℕ) → List (List ℕ) → List (List ℕ)
  | _, [] => []
  | last, w :: rest =>
    if some w ≠ last then w :: dedupCons (some w) rest
    else dedupCons last rest

/-- The block words of the length-`L` segment, in block order. -/
def wordsOfSeg (st : CEFRData) (L : ℕ) : List (List ℕ) :=
  (List.range (segCount st L)).map (blockWord st L)

/-- Well-formedness (including the sort invariant) of every segment. -/
def allSegsWF (st : CEFRData) : Prop :=
  ∀ L, 0 < L → L < st.wlp.length → SegmentWF st L

instance (st : CEFRData) : Decidable (allSegsWF st) := by
  unfold allSegsWF
  have : (∀ L < st.wlp.length, 0 < L → SegmentWF st L) ↔
      (∀ L, 0 < L → L < st.wlp.length → SegmentWF st L) := by
    constructor
    · intro h L h1 h2
      exact h L h2 h1
    · intro h L h1 h2
      exact h L h2 h1
  exact decidable_of_iff _ this

instance {ε α : Type} [DecidableEq ε] [DecidableEq α] :
    DecidableEq (Except ε α) := fun a b =>
  match a, b with
  | .ok x, .ok y => decidable_of_iff (x = y) (by simp)
  | .error x, .error y => decidable_of_iff (x = y) (by simp)
  | .ok _, .error _ => isFalse (by simp)
  | .error _, .ok _ => isFalse (by simp)

/-! ## Claim theorems -/

/-- C9: `byte_int_level_to_float(level)` returns exactly `level/50 + 1`, a
value in `[1, 6]`, for every integer `0 ≤ level ≤ 250`, and raises
`ValueError` for every integer level outside that range. -/
theorem claim9_level_decode (level : ℤ) :
    (0 ≤ level → level ≤ 250 →
      byte_int_level_to_float level = .ok ((level : ℚ) / 50 + 1) ∧
      1 ≤ (level : ℚ) / 50 + 1 ∧ (level : ℚ) / 50 + 1 ≤ 6) ∧
    ((level < 0 ∨ 250 < level) → byte_int_level_to_float level = .error ()) := by
  constructor
  · intro h1 h2
    have hq1 : (0 : ℚ) ≤ (level : ℚ) := by exact_mod_cast h1
    have hq2 : (level : ℚ) ≤ 250 := by exact_mod_cast h2
    refine ⟨by simp [byte_int_level_to_float, h1, h2], ?_, ?_⟩
    · have : (0 : ℚ) ≤ (level : ℚ) / 50 := by positivity
      linarith
    · have : (level : ℚ) / 50 ≤ 250 / 50 := by
        apply div_le_div_of_nonneg_right hq2
        norm_num
      rw [show (250 : ℚ) / 50 = 5 by norm_num] at this
      linarith
  · intro h
    rcases h with h | h <;> simp [byte_int_level_to_float] <;> omega

/-- Witness for C9 at the concrete levels `250`, `251` and `-1`. -/
theorem claim9_level_decode_witness :
    byte_int_level_to_float 250 = .ok 6 ∧
    byte_int_level_to_float 251 = .error () ∧
    byte_int_level_to_float (-1) = .error () := by
  refine ⟨?_, ?_, ?_⟩
  · have h := (claim9_level_decode 250).1 (by norm_num) (by norm_num)
    rw [h.1]
    norm_num
  · exact (claim9_level_decode 251).2 (by norm_num)
  · exact (claim9_level_decode (-1)).2 (by norm_num)

/-- C5 (code bug): the validator's constant is `MAX_LEVEL_VALUE = 6 * 50 =
300`, not 250, so a data array whose level byte is `251` — which
`byte_int_level_to_float` rejects — is nevertheless accepted by
`is_data_valid`, contradicting the documented invariant "every level byte
≤ 250". -/
theorem claim5_level_251_accepted :
    is_data_valid [0, 3] [97, 0, 251] = some true ∧
    250 < 251 ∧
    byte_int_level_to_float 251 = .error () ∧
    MAX_LEVEL_VALUE = 300 := by
  decide

/-- C1 (code bug): on the spec's own concrete scenario (a file with `N = 2`
holding the single block `"a"` + category 0 + level 0, accepted by
`is_data_valid`), looking up the absent valid-length word `"b"` does not
return `False`: the binary search sets `r` to the segment end offset, probes
block position 3 = `wlp[1]` and raises `IndexError` reading `data[3]`. -/
theorem claim1_absent_word_raises :
    is_data_valid [0, 3] [97, 0, 0] = some true ∧
    is_word_len_valid ⟨[0, 3], [97, 0, 0]⟩ 1 = true ∧
    (∀ k, k < segCount ⟨[0, 3], [97, 0, 0]⟩ 1 →
      blockWord ⟨[0, 3], [97, 0, 0]⟩ 1 k ≠ [98]) ∧
    is_word_in_database ⟨[0, 3], [97, 0, 0]⟩ [98] = .error () := by
  decide

/-- C2 counterexample: with the valid file `wlp = [0, 3]`,
`data = [97, 0, 0, 98]` (one length-1 block plus a trailing byte allowed by
the validator), searching for `"b"` probes block position `3 = wlp[1]`,
which is outside the half-open segment `[wlp[0], wlp[1]) = [0, 3)`, and even
returns it as a match since the trailing byte happens to equal `"b"`. -/
theorem claim2_counterexample :
    is_data_valid [0, 3] [97, 0, 0, 98] = some true ∧
    get_first_word_match_pos ⟨[0, 3], [97, 0, 0, 98]⟩ [98] =
      ([0, 3], .ok 3) ∧
    ¬((3 : ℤ) < 3) := by
  decide

/-- C4 (code bug): on the spec's concrete scenario (`wlp = [0, 3]`, block
`"a"` + category 0 + level 0), the word `"a"` is present, yet
`get_pos_level_dict_for_word("a")` is empty: `_get_word_data_range` computes
`end_range = first_match + word_len - 1 < start_range` whenever the word's
run touches its segment's end, dropping the run's last block. -/
theorem claim4_present_word_empty_dict :
    is_data_valid [0, 3] [97, 0, 0] = some true ∧
    is_word_in_database ⟨[0, 3], [97, 0, 0]⟩ [97] = .ok true ∧
    segCount ⟨[0, 3], [97, 0, 0]⟩ 1 = 1 ∧
    blockWord ⟨[0, 3], [97, 0, 0]⟩ 1 0 = [97] ∧
    blockCat ⟨[0, 3], [97, 0, 0]⟩ 1 0 = 0 ∧
    get_word_data_range ⟨[0, 3], [97, 0, 0]⟩ [97] = .ok (some (1, 0, 3)) ∧
    get_pos_level_dict_for_word ⟨[0, 3], [97, 0, 0]⟩ [97] = .ok [] ∧
    get_all_pos_for_word ⟨[0, 3], [97, 0, 0]⟩ [97] = .ok [] := by
  decide


/-- C3 counterexample: valid sorted file `wlp = [0, 15]` with blocks
`("a",1,0) ("a",2,0) ("a",3,0) ("a",4,250) ("b",0,0)`.  The word `"a"` is
present with categories `1,2,3,4` (each of levels `0,0,0,250`); requesting
the absent category `0` with averaging lands the binary search on the
category-3 block and — because the landed category exceeds the requested
one — scans backward only, averaging the packed levels `{0,0,0}` to `0`
(level `1.0`), whereas the rounded mean over the word's full category run
(all four map entries) is `pyRoundDiv 250 4 = 62` (level `2.24 ≠ 1.0`). -/
theorem claim3_counterexample :
    is_data_valid [0, 15] [97,1,0, 97,2,0, 97,3,0, 97,4,250, 98,0,0] =
      some true ∧
    get_all_pos_for_word
      ⟨[0, 15], [97,1,0, 97,2,0, 97,3,0, 97,4,250, 98,0,0]⟩ [97] =
      .ok [1, 2, 3, 4] ∧
    (blockLevel ⟨[0, 15], [97,1,0, 97,2,0, 97,3,0, 97,4,250, 98,0,0]⟩ 1 0,
     blockLevel ⟨[0, 15], [97,1,0, 97,2,0, 97,3,0, 97,4,250, 98,0,0]⟩ 1 1,
     blockLevel ⟨[0, 15], [97,1,0, 97,2,0, 97,3,0, 97,4,250, 98,0,0]⟩ 1 2,
     blockLevel ⟨[0, 15], [97,1,0, 97,2,0, 97,3,0, 97,4,250, 98,0,0]⟩ 1 3) =
      (0, 0, 0, 250) ∧
    get_int_word_level_for_pos_id
      ⟨[0, 15], [97,1,0, 97,2,0, 97,3,0, 97,4,250, 98,0,0]⟩ [97] 0 true =
      .ok (some 0) ∧
    get_word_level_for_pos_id
      ⟨[0, 15], [97,1,0, 97,2,0, 97,3,0, 97,4,250, 98,0,0]⟩ [97] 0 true =
      .ok (some 1) ∧
    pyRoundDiv (0 + 0 + 0 + 250) 4 = 62 ∧ (62 : ℕ) ≠ 0 ∧
    byte_int_level_to_float 62 = .ok (56 / 25) ∧ ¬((56 : ℚ) / 25 = 1) := by
  have h4 : get_int_word_level_for_pos_id
      ⟨[0, 15], [97,1,0, 97,2,0, 97,3,0, 97,4,250, 98,0,0]⟩ [97] 0 true =
      .ok (some 0) := by decide
  refine ⟨by decide, by decide, by decide, h4, ?_, by decide, by decide,
    ?_, ?_⟩
  · simp +decide [get_word_level_for_pos_id, h4, byte_int_level_to_float]
  · rw [byte_int_level_to_float]
    norm_num
  · norm_num

/-- The consecutive-pair walk of the partition-table validator checks
exactly the pairwise monotonicity-and-divisibility conditions. -/
theorem wlpWalk_iff (t : List ℕ) : ∀ (bs prev : ℕ),
    wlpWalk bs prev t = true ↔
    ∀ j, j < t.length →
      (prev :: t).getD j 0 ≤ t.getD j 0 ∧
      (t.getD j 0 - (prev :: t).getD j 0) % (bs + 1 + j) = 0 := by
  induction t with
  | nil => simp [wlpWalk]
  | cons e rest ih =>
    intro bs prev
    rw [wlpWalk]
    by_cases h1 : e < prev
    · rw [if_pos h1]
      constructor
      · intro hcontra
        simp at hcontra
      · intro hforall
        exfalso
        have h0 := (hforall 0 (by simp)).1
        simp only [List.getD_cons_zero] at h0
        omega
    · rw [if_neg h1]
      by_cases h2 : (e - prev) % (bs + 1) = 0
      · rw [if_neg (by simpa using h2), ih (bs + 1) e]
        constructor
        · intro h j hj
          cases j with
          | zero =>
            simp only [List.getD_cons_zero]
            constructor
            · omega
            · simpa using h2
          | succ j =>
            have hj' : j < rest.length := by simpa using hj
            have h' := h j hj'
            simp only [List.getD_cons_succ]
            have harith : bs + 1 + (j + 1) = bs + 1 + 1 + j := by omega
            rw [harith]
            exact h'
        · intro h j hj
          have h' := h (j + 1) (by simpa using hj)
          simp only [List.getD_cons_succ] at h'
          have harith : bs + 1 + (j + 1) = bs + 1 + 1 + j := by omega
          rw [harith] at h'
          exact h'
      · rw [if_pos (by simpa using h2)]
        constructor
        · intro hcontra
          simp at hcontra
        · intro hforall
          exfalso
          have h0 := (hforall 0 (by simp)).2
          simp only [List.getD_cons_zero] at h0
          exact h2 (by simpa using h0)

/-- C10: `is_wlp_array_valid(table)` returns true iff
`2 ≤ len(table) ≤ 255` and every consecutive pair `(table[k-1], table[k])`,
`k = 1 .. len(table)-1` with block size `k+2`, is non-decreasing with the
difference divisible by `k+2`. -/
theorem claim10_wlp_validator_iff (table : List ℕ) :
    is_wlp_array_valid table = true ↔
    (2 ≤ table.length ∧ table.length ≤ 255 ∧
      ∀ k, 1 ≤ k → k ≤ table.length - 1 →
        table.getD (k - 1) 0 ≤ table.getD k 0 ∧
        (table.getD k 0 - table.getD (k - 1) 0) % (k + 2) = 0) := by
  cases table with
  | nil => simp [is_wlp_array_valid, is_wlp_length_valid]
  | cons h t =>
    rw [is_wlp_array_valid]
    by_cases hlen : is_wlp_length_valid (h :: t).length = true
    · rw [hlen]
      simp only [Bool.not_true, Bool.false_eq_true, if_false]
      have hlen' : 2 ≤ (h :: t).length ∧ (h :: t).length ≤ 255 := by
        simpa [is_wlp_length_valid] using hlen
      rw [wlpWalk_iff]
      constructor
      · intro hw
        refine ⟨hlen'.1, hlen'.2, ?_⟩
        intro k hk1 hk2
        obtain ⟨j, rfl⟩ : ∃ j, k = j + 1 := ⟨k - 1, by omega⟩
        have hj : j < t.length := by
          simp only [List.length_cons] at hk2
          omega
        have h' := hw j hj
        simp only [Nat.add_sub_cancel, List.getD_cons_succ]
        have harith : j + 1 + 2 = 2 + 1 + j := by omega
        rw [harith]
        exact h'
      · intro hr j hj
        have h' := (hr.2.2 (j + 1) (by omega) (by simp; omega))
        simp only [Nat.add_sub_cancel, List.getD_cons_succ] at h'
        have harith : j + 1 + 2 = 2 + 1 + j := by omega
        rw [harith] at h'
        exact h'
    · rw [Bool.not_eq_true] at hlen
      rw [hlen]
      simp only [Bool.not_false, if_true, Bool.false_eq_true, false_iff]
      intro hcontra
      obtain ⟨hc1, hc2, -⟩ := hcontra
      simp only [List.length_cons] at hc1 hc2
      have : is_wlp_length_valid (h :: t).length = true := by
        simp [is_wlp_length_valid]
        omega
      rw [this] at hlen
      cases hlen

/-- Witness for C10 on the repository's own test vectors. -/
theorem claim10_wlp_validator_iff_witness :
    is_wlp_array_valid [3, 6, 6, 6, 12] = true :=
  (claim10_wlp_validator_iff [3, 6, 6, 6, 12]).mpr (by decide)

/-- Bounds for the block-aligned midpoint of the binary search. -/
theorem mid_spec {l r bs : ℤ} (hlr : l ≤ r) (hbs : 0 < bs) :
    l ≤ ((r - l).fdiv bs).fdiv 2 * bs + l ∧
    ((r - l).fdiv bs).fdiv 2 * bs + l ≤ r := by
  have h1 : (r - l).fdiv bs = (r - l) / bs := Int.fdiv_eq_ediv _ (le_of_lt hbs)
  have h2 : ((r - l) / bs).fdiv 2 = (r - l) / bs / 2 :=
    Int.fdiv_eq_ediv _ (by norm_num)
  rw [h1, h2]
  have hq1 : 0 ≤ (r - l) / bs := Int.ediv_nonneg (by omega) (le_of_lt hbs)
  have hq2 : 0 ≤ (r - l) / bs / 2 := Int.ediv_nonneg hq1 (by norm_num)
  have hmul : 0 ≤ (r - l) / bs / 2 * bs := mul_nonneg hq2 (le_of_lt hbs)
  refine ⟨by omega, ?_⟩
  have h3 : (r - l) / bs / 2 ≤ (r - l) / bs := Int.ediv_le_self 2 hq1
  have h4 : (r - l) / bs / 2 * bs ≤ (r - l) / bs * bs :=
    mul_le_mul_of_nonneg_right h3 (le_of_lt hbs)
  have h5 : (r - l) / bs * bs ≤ r - l := Int.ediv_mul_le _ (ne_of_gt hbs)
  omega

/-- A full binary-search character match pins down the word bytes at the
matched position. -/
theorem cmpWordAt_eq_imp_wordAt (data : List ℕ) :
    ∀ (w : List ℕ) (i : ℤ), cmpWordAt data w i = some .eq →
      wordAt data i w.length = some w := by
  intro w
  induction w with
  | nil => intro i _; rfl
  | cons c rest ih =>
    intro i h
    rw [cmpWordAt] at h
    cases hd : dataAt data i with
    | none => rw [hd] at h; cases h
    | some c2 =>
      rw [hd] at h
      dsimp only at h
      by_cases h1 : c2 < c
      · rw [if_pos h1] at h; cases h
      · rw [if_neg h1] at h
        by_cases h2 : c < c2
        · rw [if_pos h2] at h; cases h
        · rw [if_neg h2] at h
          have hc : c2 = c := by omega
          have := ih (i + 1) h
          rw [List.length_cons, wordAt, hd, this, hc]

/-- Invariant of the `while l <= r` loop: every probed block position stays
within the closed interval `[lo, hi]` spanned by the initial bounds and is
block-aligned relative to `lo`; a returned non-`-1` position additionally
carries a full word match. -/
theorem searchLoop_trace_bounds (data w : List ℕ) (lo hi : ℤ) :
    ∀ (fuel : ℕ) (l r : ℤ), lo ≤ l → r ≤ hi →
      ((w.length : ℤ) + 2) ∣ (l - lo) →
      (∀ m ∈ (searchLoop data w fuel l r).1,
        lo ≤ m ∧ m ≤ hi ∧ ((w.length : ℤ) + 2) ∣ (m - lo)) ∧
      (∀ p, (searchLoop data w fuel l r).2 = .ok p → p ≠ -1 →
        lo ≤ p ∧ p ≤ hi ∧ ((w.length : ℤ) + 2) ∣ (p - lo) ∧
        cmpWordAt data w p = some .eq) := by
  intro fuel
  induction fuel with
  | zero =>
    intro l r _ _ _
    constructor
    · intro m hm
      simp [searchLoop] at hm
    · intro p hp
      simp [searchLoop] at hp
  | succ n ih =>
    intro l r hl hr hdvd
    rw [searchLoop]
    by_cases hlr : l ≤ r
    · rw [if_pos hlr]
      dsimp only
      have hbs : 0 < (w.length : ℤ) + 2 := by positivity
      have hmid := mid_spec hlr hbs
      set bs : ℤ := (w.length : ℤ) + 2 with hbs_def
      set m : ℤ := ((r - l).fdiv bs).fdiv 2 * bs + l with hm_def
      have hmlo : lo ≤ m := le_trans hl hmid.1
      have hmhi : m ≤ hi := le_trans hmid.2 hr
      have hmdvd : bs ∣ (m - lo) := by
        have harith : m - lo = (l - lo) + ((r - l).fdiv bs).fdiv 2 * bs := by
          rw [hm_def]; ring
        rw [harith]
        exact dvd_add hdvd (Dvd.intro_left _ rfl)
      cases hcmp : cmpWordAt data w m with
      | none =>
        dsimp only
        constructor
        · intro m' hm'
          simp only [List.mem_singleton] at hm'
          subst hm'
          exact ⟨hmlo, hmhi, hmdvd⟩
        · intro p hp
          cases hp
      | some ord =>
        cases ord with
        | eq =>
          dsimp only
          constructor
          · intro m' hm'
            simp only [List.mem_singleton] at hm'
            subst hm'
            exact ⟨hmlo, hmhi, hmdvd⟩
          · intro p hp _
            cases hp
            exact ⟨hmlo, hmhi, hmdvd, hcmp⟩
        | lt =>
          dsimp only
          have hrec := ih (m + bs) r (by omega) hr
            (by
              have harith : m + bs - lo = (m - lo) + bs := by ring
              rw [harith]
              exact dvd_add hmdvd dvd_rfl)
          constructor
          · intro m' hm'
            simp only [List.mem_cons] at hm'
            rcases hm' with rfl | hm'
            · exact ⟨hmlo, hmhi, hmdvd⟩
            · exact hrec.1 m' hm'
          · intro p hp hp1
            exact hrec.2 p hp hp1
        | gt =>
          dsimp only
          have hrec := ih l (m - bs) hl (by omega) hdvd
          constructor
          · intro m' hm'
            simp only [List.mem_cons] at hm'
            rcases hm' with rfl | hm'
            · exact ⟨hmlo, hmhi, hmdvd⟩
            · exact hrec.1 m' hm'
          · intro p hp hp1
            exact hrec.2 p hp hp1
    · rw [if_neg hlr]
      constructor
      · intro m hm
        cases hm
      · intro p hp hp1
        cases hp
        exact absurd rfl hp1

/-- With a valid word length, the two partition-table reads of the search
succeed and return the segment bounds. -/
theorem wlpAt_valid (st : CEFRData) {L : ℕ} (h0 : 0 < L)
    (h1 : L < st.wlp.length) :
    wlpAt st ((L : ℤ) - 1) = some (segLo st L) ∧
    wlpAt st (L : ℤ) = some (segHi st L) := by
  unfold wlpAt segLo segHi
  constructor
  · rw [if_pos (by omega)]
    have ht : ((L : ℤ) - 1).toNat = L - 1 := by omega
    rw [ht, List.getElem?_eq_getElem (by omega), List.getD_eq_getElem _ _ (by omega)]
  · rw [if_pos (by positivity)]
    have ht : ((L : ℤ)).toNat = L := by omega
    rw [ht, List.getElem?_eq_getElem h1, List.getD_eq_getElem _ _ h1]

/-- C2 (amended): for every packed word of valid length `L`, every block
position probed by the binary search lies in the CLOSED interval
`[wlp[L-1], wlp[L]]` — the exclusive segment end `wlp[L]` included — and is
block-aligned; any non-negative position it returns is likewise
block-aligned in that closed interval and carries word bytes equal to the
query (but may be `wlp[L]` itself, outside the segment, as
`claim2_counterexample` shows). -/
theorem claim2_amended (st : CEFRData) (w : List ℕ)
    (hL : is_word_len_valid st w.length = true) :
    (∀ m ∈ (get_first_word_match_pos st w).1,
      (segLo st w.length : ℤ) ≤ m ∧ m ≤ (segHi st w.length : ℤ) ∧
      ((w.length : ℤ) + 2) ∣ (m - (segLo st w.length : ℤ))) ∧
    (∀ p, (get_first_word_match_pos st w).2 = .ok p → p ≠ -1 →
      (segLo st w.length : ℤ) ≤ p ∧ p ≤ (segHi st w.length : ℤ) ∧
      ((w.length : ℤ) + 2) ∣ (p - (segLo st w.length : ℤ)) ∧
      wordAt st.data p w.length = some w) := by
  have hv : 0 < w.length ∧ w.length < st.wlp.length := by
    simpa [is_word_len_valid] using hL
  obtain ⟨hlo, hhi⟩ := wlpAt_valid st hv.1 hv.2
  have hbounds := searchLoop_trace_bounds st.data w (segLo st w.length)
    (segHi st w.length) (segHi st w.length - segLo st w.length + 1)
    (segLo st w.length) (segHi st w.length) le_rfl le_rfl (by simp)
  rw [get_first_word_match_pos, hlo, hhi]
  constructor
  · exact hbounds.1
  · intro p hp hp1
    obtain ⟨h1, h2, h3, h4⟩ := hbounds.2 p hp hp1
    exact ⟨h1, h2, h3, cmpWordAt_eq_imp_wordAt st.data w p h4⟩

/-- Witness for C2 (amended) on the `claim2_counterexample` input: the
returned position 3 is block-aligned, lies in the closed interval
`[wlp[0], wlp[1]] = [0, 3]`, and its word bytes match the query. -/
theorem claim2_amended_witness :
    (segLo (⟨[0, 3], [97, 0, 0, 98]⟩ : CEFRData) 1 : ℤ) ≤ 3 ∧
    (3 : ℤ) ≤ (segHi (⟨[0, 3], [97, 0, 0, 98]⟩ : CEFRData) 1 : ℤ) ∧
    ((1 : ℤ) + 2) ∣ ((3 : ℤ) - (segLo (⟨[0, 3], [97, 0, 0, 98]⟩ : CEFRData) 1 : ℤ)) ∧
    wordAt [97, 0, 0, 98] 3 1 = some [98] :=
  (claim2_amended ⟨[0, 3], [97, 0, 0, 98]⟩ [98] (by decide)).2 3
    (by decide) (by decide)

/-! ### Order theory for the lexicographic comparison -/

theorem lexLtB_irrefl (a : List ℕ) : lexLtB a a = false := by
  induction a with
  | nil => rfl
  | cons c rest ih => simp [lexLtB, ih]

theorem lexLtB_trans :
    ∀ (a b c : List ℕ), lexLtB a b = true → lexLtB b c = true →
      lexLtB a c = true := by
  intro a
  induction a with
  | nil =>
    intro b c h1 h2
    cases b with
    | nil => simp [lexLtB] at h1
    | cons y ys =>
      cases c with
      | nil => simp [lexLtB] at h2
      | cons z zs => rfl
  | cons x xs ih =>
    intro b c h1 h2
    cases b with
    | nil => simp [lexLtB] at h1
    | cons y ys =>
      cases c with
      | nil => simp [lexLtB] at h2
      | cons z zs =>
        rw [lexLtB] at h1 h2 ⊢
        by_cases hxy : x < y
        · by_cases hyz : y < z
          · rw [if_pos (by omega : x < z)]
          · by_cases hzy : z < y
            · rw [if_neg hyz, if_pos hzy] at h2
              cases h2
            · rw [if_pos (by omega : x < z)]
        · by_cases hyx : y < x
          · rw [if_neg hxy, if_pos hyx] at h1
            cases h1
          · rw [if_neg hxy, if_neg hyx] at h1
            by_cases hyz : y < z
            · rw [if_pos (by omega : x < z)]
            · by_cases hzy : z < y
              · rw [if_neg hyz, if_pos hzy] at h2
                cases h2
              · rw [if_neg hyz, if_neg hzy] at h2
                rw [if_neg (by omega : ¬x < z), if_neg (by omega : ¬z < x)]
                exact ih ys zs h1 h2

theorem lexLtB_trichotomy :
    ∀ (a b : List ℕ), lexLtB a b = true ∨ a = b ∨ lexLtB b a = true := by
  intro a
  induction a with
  | nil =>
    intro b
    cases b with
    | nil => exact .inr (.inl rfl)
    | cons y ys => exact .inl rfl
  | cons x xs ih =>
    intro b
    cases b with
    | nil => exact .inr (.inr rfl)
    | cons y ys =>
      by_cases hxy : x < y
      · left
        rw [lexLtB, if_pos hxy]
      · by_cases hyx : y < x
        · right; right
          rw [lexLtB, if_pos hyx]
        · have hxy_eq : x = y := by omega
          subst hxy_eq
          rcases ih ys with h | h | h
          · left
            rw [lexLtB, if_neg hxy, if_neg hyx]
            exact h
          · right; left
            rw [h]
          · right; right
            rw [lexLtB, if_neg hyx, if_neg hxy]
            exact h

theorem lexLtB_asymm {a b : List ℕ} (h : lexLtB a b = true) :
    lexLtB b a = false := by
  by_contra hc
  rw [Bool.not_eq_false] at hc
  have h2 := lexLtB_trans a b a h hc
  rw [lexLtB_irrefl] at h2
  cases h2

/-- Two lists strictly sorted by the same irreflexive transitive comparison
and having the same members are equal. -/
theorem sorted_unique (ltb : List ℕ → List ℕ → Bool)
    (hirr : ∀ a, ltb a a = false)
    (htrans : ∀ a b c, ltb a b = true → ltb b c = true → ltb a c = true) :
    ∀ (l1 l2 : List (List ℕ)),
      List.Pairwise (fun a b => ltb a b = true) l1 →
      List.Pairwise (fun a b => ltb a b = true) l2 →
      (∀ x, x ∈ l1 ↔ x ∈ l2) → l1 = l2 := by
  intro l1
  induction l1 with
  | nil =>
    intro l2 _ _ hmem
    cases l2 with
    | nil => rfl
    | cons b t2 =>
      have := (hmem b).mpr (List.mem_cons_self b t2)
      cases this
  | cons a t1 ih =>
    intro l2 hp1 hp2 hmem
    cases l2 with
    | nil =>
      have := (hmem a).mp (List.mem_cons_self a t1)
      cases this
    | cons b t2 =>
      have hne : ∀ x, ltb x x = true → False := by
        intro x hx
        rw [hirr] at hx
        cases hx
      have hab : a = b := by
        have ha2 : a ∈ b :: t2 := (hmem a).mp (List.mem_cons_self a t1)
        have hb1 : b ∈ a :: t1 := (hmem b).mpr (List.mem_cons_self b t2)
        rcases List.mem_cons.mp ha2 with h | ha2'
        · exact h
        · rcases List.mem_cons.mp hb1 with h | hb1'
          · exact h.symm
          · exfalso
            have h1 := (List.pairwise_cons.mp hp1).1 b hb1'
            have h2 := (List.pairwise_cons.mp hp2).1 a ha2'
            exact hne a (htrans a b a h1 h2)
      subst hab
      have htails : ∀ x, x ∈ t1 ↔ x ∈ t2 := by
        intro x
        constructor
        · intro hx
          have hxa : ltb a x = true := (List.pairwise_cons.mp hp1).1 x hx
          have := (hmem x).mp (List.mem_cons_of_mem a hx)
          rcases List.mem_cons.mp this with h | h
          · exfalso
            subst h
            exact hne x hxa
          · exact h
        · intro hx
          have hxa : ltb a x = true := (List.pairwise_cons.mp hp2).1 x hx
          have := (hmem x).mpr (List.mem_cons_of_mem a hx)
          rcases List.mem_cons.mp this with h | h
          · exfalso
            subst h
            exact hne x hxa
          · exact h
      rw [ih t2 (List.pairwise_cons.mp hp1).2 (List.pairwise_cons.mp hp2).2 htails]

/-- Transitivity of the non-strict comparison derived from a strict total
Boolean comparison. -/
theorem ltb_le_trans (ltb : List ℕ → List ℕ → Bool)
    (htrans : ∀ a b c, ltb a b = true → ltb b c = true → ltb a c = true)
    (htricho : ∀ a b, ltb a b = true ∨ a = b ∨ ltb b a = true)
    {a b c : List ℕ} (h1 : ltb b a = false) (h2 : ltb c b = false) :
    ltb c a = false := by
  by_contra hc
  rw [Bool.not_eq_false] at hc
  rcases htricho a b with h | h | h
  · have := htrans c a b hc h
    rw [h2] at this
    cases this
  · subst h
    rw [h2] at hc
    cases hc
  · rw [h1] at h
    cases h

/-- In a weakly ascending chain, every later element is at least the head. -/
theorem chain_all_ge (ltb : List ℕ → List ℕ → Bool)
    (htrans : ∀ a b c, ltb a b = true → ltb b c = true → ltb a c = true)
    (htricho : ∀ a b, ltb a b = true ∨ a = b ∨ ltb b a = true) :
    ∀ (ws : List (List ℕ)) (w : List ℕ),
      List.Chain' (fun a b => ltb b a = false) (w :: ws) →
      ∀ x ∈ ws, ltb x w = false := by
  intro ws
  induction ws with
  | nil =>
    intro w _ x hx
    cases hx
  | cons y rest ih =>
    intro w hchain x hx
    have hyw : ltb y w = false := (List.chain'_cons.mp hchain).1
    rcases List.mem_cons.mp hx with rfl | hx'
    · exact hyw
    · exact ltb_le_trans ltb htrans htricho hyw
        (ih y (List.chain'_cons.mp hchain).2 x hx')

/-- Core dedup lemma: on a weakly ascending run whose elements all lie at or
above the previously yielded word `w0`, the consecutive-dedup output is
strictly ascending and strictly above `w0`. -/
theorem dedup_aux (ltb : List ℕ → List ℕ → Bool)
    (hirr : ∀ a, ltb a a = false)
    (htrans : ∀ a b c, ltb a b = true → ltb b c = true → ltb a c = true)
    (htricho : ∀ a b, ltb a b = true ∨ a = b ∨ ltb b a = true) :
    ∀ (ws : List (List ℕ)) (w0 : List ℕ),
      List.Chain' (fun a b => ltb b a = false) ws →
      (∀ x ∈ ws, ltb x w0 = false) →
      List.Pairwise (fun a b => ltb a b = true) (dedupCons (some w0) ws) ∧
      (∀ x ∈ dedupCons (some w0) ws, ltb w0 x = true) := by
  intro ws
  induction ws with
  | nil =>
    intro w0 _ _
    constructor
    · exact List.Pairwise.nil
    · intro x hx
      cases hx
  | cons w rest ih =>
    intro w0 hchain hge
    have hw_ge : ltb w w0 = false := hge w (List.mem_cons_self w rest)
    have hchain_rest : List.Chain' (fun a b => ltb b a = false) rest :=
      List.Chain'.tail hchain
    have hrest_ge_w : ∀ x ∈ rest, ltb x w = false :=
      chain_all_ge ltb htrans htricho rest w hchain
    rw [dedupCons]
    by_cases heq : some w ≠ some w0
    · rw [if_pos heq]
      have hww0 : w ≠ w0 := by
        intro h
        exact heq (by rw [h])
      have hw0_lt_w : ltb w0 w = true := by
        rcases htricho w0 w with h | h | h
        · exact h
        · exact absurd h.symm hww0
        · rw [hw_ge] at h
          cases h
      have ih' := ih w hchain_rest hrest_ge_w
      constructor
      · exact List.Pairwise.cons (fun x hx => ih'.2 x hx) ih'.1
      · intro x hx
        rcases List.mem_cons.mp hx with rfl | hx'
        · exact hw0_lt_w
        · exact htrans w0 w x hw0_lt_w (ih'.2 x hx')
    · rw [if_neg heq]
      have hww0 : w = w0 := by
        have := Decidable.not_not.mp heq
        exact Option.some.inj this
      subst hww0
      exact ih w hchain_rest (fun x hx => hrest_ge_w x hx)

/-- Consecutive dedup of a weakly ascending list is strictly ascending. -/
theorem dedup_pairwise (ltb : List ℕ → List ℕ → Bool)
    (hirr : ∀ a, ltb a a = false)
    (htrans : ∀ a b c, ltb a b = true → ltb b c = true → ltb a c = true)
    (htricho : ∀ a b, ltb a b = true ∨ a = b ∨ ltb b a = true)
    (ws : List (List ℕ))
    (hchain : List.Chain' (fun a b => ltb b a = false) ws) :
    List.Pairwise (fun a b => ltb a b = true) (dedupCons none ws) := by
  cases ws with
  | nil => exact List.Pairwise.nil
  | cons w rest =>
    rw [dedupCons, if_pos (by simp)]
    have haux := dedup_aux ltb hirr htrans htricho rest w
      (List.Chain'.tail hchain)
      (chain_all_ge ltb htrans htricho rest w hchain)
    exact List.Pairwise.cons (fun x hx => haux.2 x hx) haux.1

/-- Dedup output elements come from the input. -/
theorem dedupCons_subset :
    ∀ (ws : List (List ℕ)) (last : Option (List ℕ)) (x : List ℕ),
      x ∈ dedupCons last ws → x ∈ ws := by
  intro ws
  induction ws with
  | nil =>
    intro last x hx
    cases hx
  | cons w rest ih =>
    intro last x hx
    rw [dedupCons] at hx
    by_cases heq : some w ≠ last
    · rw [if_pos heq] at hx
      rcases List.mem_cons.mp hx with rfl | hx'
      · exact List.mem_cons_self x rest
      · exact List.mem_cons_of_mem w (ih (some w) x hx')
    · rw [if_neg heq] at hx
      exact List.mem_cons_of_mem w (ih last x hx)

/-- Every input value survives consecutive dedup, except possibly the
previously yielded one. -/
theorem mem_dedupCons :
    ∀ (ws : List (List ℕ)) (w0 x : List ℕ), x ∈ ws →
      x ∈ dedupCons (some w0) ws ∨ x = w0 := by
  intro ws
  induction ws with
  | nil =>
    intro w0 x hx
    cases hx
  | cons w rest ih =>
    intro w0 x hx
    rw [dedupCons]
    by_cases heq : some w ≠ some w0
    · rw [if_pos heq]
      rcases List.mem_cons.mp hx with rfl | hx'
      · exact .inl (List.mem_cons_self x (dedupCons (some x) rest))
      · rcases ih w x hx' with h | h
        · exact .inl (List.mem_cons_of_mem w h)
        · subst h
          exact .inl (List.mem_cons_self x (dedupCons (some x) rest))
    · rw [if_neg heq]
      have hww0 : w = w0 := Option.some.inj (Decidable.not_not.mp heq)
      subst hww0
      rcases List.mem_cons.mp hx with rfl | hx'
      · exact .inr rfl
      · exact ih w x hx'

/-- Every input value survives consecutive dedup from the initial `None`
state. -/
theorem mem_dedupCons_none :
    ∀ (ws : List (List ℕ)) (x : List ℕ), x ∈ ws → x ∈ dedupCons none ws := by
  intro ws x hx
  cases ws with
  | nil => cases hx
  | cons w rest =>
    rw [dedupCons, if_pos (by simp)]
    rcases List.mem_cons.mp hx with rfl | hx'
    · exact List.mem_cons_self x (dedupCons (some x) rest)
    · rcases mem_dedupCons rest w x hx' with h | h
      · exact List.mem_cons_of_mem w h
      · subst h
        exact List.mem_cons_self x (dedupCons (some x) rest)

/-- On a weakly ascending list, consecutive dedup commutes with reversal. -/
theorem dedupCons_reverse (ltb : List ℕ → List ℕ → Bool)
    (hirr : ∀ a, ltb a a = false)
    (htrans : ∀ a b c, ltb a b = true → ltb b c = true → ltb a c = true)
    (htricho : ∀ a b, ltb a b = true ∨ a = b ∨ ltb b a = true)
    (ws : List (List ℕ))
    (hchain : List.Chain' (fun a b => ltb b a = false) ws) :
    dedupCons none ws.reverse = (dedupCons none ws).reverse := by
  apply sorted_unique (fun a b => ltb b a) hirr
    (fun a b c h1 h2 => htrans c b a h2 h1)
  · apply dedup_pairwise (fun a b => ltb b a) hirr
      (fun a b c h1 h2 => htrans c b a h2 h1)
      (fun a b => by
        rcases htricho a b with h | h | h
        · exact .inr (.inr h)
        · exact .inr (.inl h)
        · exact .inl h)
    rw [List.chain'_reverse]
    exact hchain
  · rw [List.pairwise_reverse]
    exact dedup_pairwise ltb hirr htrans htricho ws hchain
  · intro x
    constructor
    · intro hx
      rw [List.mem_reverse]
      exact mem_dedupCons_none ws x
        (List.mem_reverse.mp (dedupCons_subset ws.reverse none x hx))
    · intro hx
      exact mem_dedupCons_none ws.reverse x
        (List.mem_reverse.mpr (dedupCons_subset ws none x
          (List.mem_reverse.mp hx)))

/-- The dedup loop of `yield_words_with_length` computes `dedupCons` of the
blocks' words. -/
theorem ywlGo_eq_dedup (data : List ℕ) (L : ℕ) :
    ∀ (ps : List ℤ) (ws : List (List ℕ)) (last : Option (List ℕ)),
      ps.length = ws.length →
      (∀ j, j < ps.length →
        wordAt data (ps.getD j 0) L = some (ws.getD j [])) →
      ywlGo data L ps last = .ok (dedupCons last ws) := by
  intro ps
  induction ps with
  | nil =>
    intro ws last hlen _
    cases ws with
    | nil => rfl
    | cons w wt => simp at hlen
  | cons p pt ih =>
    intro ws last hlen hpt
    cases ws with
    | nil => simp at hlen
    | cons w wt =>
      have h0 := hpt 0 (by simp)
      simp only [List.getD_cons_zero] at h0
      rw [ywlGo, h0]
      dsimp only
      have hlen' : pt.length = wt.length := by simpa using hlen
      have hpt' : ∀ j, j < pt.length →
          wordAt data (pt.getD j 0) L = some (wt.getD j []) := by
        intro j hj
        have := hpt (j + 1) (by simpa using Nat.succ_lt_succ hj)
        simpa only [List.getD_cons_succ] using this
      by_cases hne : some w ≠ last
      · rw [if_pos hne, ih wt (some w) hlen' hpt', dedupCons, if_pos hne]
      · rw [if_neg hne, ih wt last hlen' hpt', dedupCons, if_neg hne]

/-- Closed form of a forward Python range over a whole number of strides. -/
theorem pyRangeZ_fwd (lo bs : ℤ) (n : ℕ) (hbs : 0 < bs) :
    pyRangeZ lo (lo + bs * n) bs =
      (List.range n).map (fun k : ℕ => lo + bs * (k : ℤ)) := by
  rw [pyRangeZ, if_pos hbs]
  have h1 : lo + bs * n - lo + bs - 1 = (bs - 1) + bs * n := by ring
  rw [h1, Int.fdiv_eq_ediv _ (le_of_lt hbs),
    Int.add_mul_ediv_left _ _ (ne_of_gt hbs),
    Int.ediv_eq_zero_of_lt (by omega) (by omega)]
  norm_num

/-- Closed form of the backward Python range used for reverse traversal: it
is the reverse of the forward range. -/
theorem pyRangeZ_rev (lo bs : ℤ) (n : ℕ) (hbs : 0 < bs) :
    pyRangeZ (lo + bs * n - bs) (lo - bs) (-bs) =
      ((List.range n).map (fun k : ℕ => lo + bs * (k : ℤ))).reverse := by
  rw [pyRangeZ, if_neg (by omega), if_pos (by omega)]
  have h1 : lo + bs * n - bs - (lo - bs) - -bs - 1 = (bs - 1) + bs * n := by
    ring
  rw [h1, neg_neg, Int.fdiv_eq_ediv _ (le_of_lt hbs),
    Int.add_mul_ediv_left _ _ (ne_of_gt hbs),
    Int.ediv_eq_zero_of_lt (by omega) (by omega)]
  apply List.ext_getElem
  · simp
  · intro i h1i h2i
    simp only [List.getElem_map, List.getElem_range, List.getElem_reverse,
      List.length_map, List.length_range] at h1i h2i ⊢
    have hi : i < n := by
      simpa using h1i
    have hcast : ((n - 1 - i : ℕ) : ℤ) = (n : ℤ) - 1 - (i : ℤ) := by
      omega
    rw [hcast]
    ring

/-- A successful `wordAt` read returns as many bytes as requested. -/
theorem wordAt_length (data : List ℕ) :
    ∀ (n : ℕ) (i : ℤ) (v : List ℕ), wordAt data i n = some v →
      v.length = n := by
  intro n
  induction n with
  | zero =>
    intro i v h
    rw [wordAt] at h
    cases h
    rfl
  | succ n ih =>
    intro i v h
    rw [wordAt] at h
    cases hd : dataAt data i with
    | none =>
      rw [hd] at h
      cases h
    | some c =>
      rw [hd] at h
      dsimp only at h
      cases hw : wordAt data (i + 1) n with
      | none =>
        rw [hw] at h
        cases h
      | some rest =>
        rw [hw] at h
        dsimp only at h
        cases h
        simp [ih (i + 1) rest hw]

/-- A well-formed segment spans a whole number of blocks. -/
theorem segHi_eq (st : CEFRData) (L : ℕ) (hwf : SegmentWF st L) :
    (segHi st L : ℤ) = (segLo st L : ℤ) + ((L : ℤ) + 2) * (segCount st L : ℕ) := by
  obtain ⟨h1, h2, -, -, -, -⟩ := hwf
  have hdvd : (L + 2) ∣ (segHi st L - segLo st L) := Nat.dvd_of_mod_eq_zero h2
  have hmul : (L + 2) * segCount st L = segHi st L - segLo st L := by
    rw [segCount]
    exact Nat.mul_div_cancel' hdvd
  have : segHi st L = segLo st L + (L + 2) * segCount st L := by omega
  rw [this]
  push_cast
  ring

/-- Every in-range block's word is readable and equals `blockWord`. -/
theorem blockWord_spec (st : CEFRData) (L : ℕ) (hwf : SegmentWF st L)
    {k : ℕ} (hk : k < segCount st L) :
    wordAt st.data (segPos st L k) L = some (blockWord st L k) := by
  have h := hwf.2.2.2.1 k hk
  cases hv : wordAt st.data (segPos st L k) L with
  | none => rw [hv] at h; cases h
  | some v =>
    rw [blockWord, hv]
    rfl

/-- `getD` on a map over `List.range`. -/
theorem map_range_getD {α : Type} (f : ℕ → α) (n j : ℕ) (d : α)
    (hj : j < n) : ((List.range n).map f).getD j d = f j := by
  rw [List.getD_eq_getElem _ _ (by simpa using hj)]
  simp

/-- `getD` on the reverse of a map over `List.range`. -/
theorem map_range_reverse_getD {α : Type} (f : ℕ → α) (n j : ℕ) (d : α)
    (hj : j < n) :
    (((List.range n).map f).reverse).getD j d = f (n - 1 - j) := by
  rw [List.getD_eq_getElem _ _ (by simpa using hj)]
  simp only [List.getElem_reverse, List.getElem_map, List.getElem_range,
    List.length_map, List.length_range]

/-- The block words of a well-formed segment form a weakly ascending
chain. -/
theorem wordsOfSeg_chain (st : CEFRData) (L : ℕ) (hwf : SegmentWF st L) :
    List.Chain' (fun a b => lexLtB b a = false) (wordsOfSeg st L) := by
  rw [wordsOfSeg, List.chain'_map]
  cases hn : segCount st L with
  | zero => simp
  | succ m =>
    rw [List.chain'_range_succ]
    intro j hj
    have := hwf.2.2.2.2.2 j (by omega)
    exact this

/-- Specification of `yield_words_with_length` on a well-formed sorted
segment: the forward traversal yields the consecutive-dedup of the block
words, and the reverse traversal yields exactly its reverse. -/
theorem ywl_spec (st : CEFRData) (L : ℕ)
    (hv : is_word_len_valid st L = true) (hwf : SegmentWF st L) :
    yield_words_with_length st L false =
      .ok (dedupCons none (wordsOfSeg st L)) ∧
    yield_words_with_length st L true =
      .ok ((dedupCons none (wordsOfSeg st L)).reverse) := by
  have hv' : 0 < L ∧ L < st.wlp.length := by
    simpa [is_word_len_valid] using hv
  obtain ⟨hlo, hhi⟩ := wlpAt_valid st hv'.1 hv'.2
  have hbs : (0 : ℤ) < (L : ℤ) + 2 := by positivity
  have hseg := segHi_eq st L hwf
  have hlen_words : (wordsOfSeg st L).length = segCount st L := by
    simp [wordsOfSeg]
  constructor
  · rw [yield_words_with_length, hv]
    simp only [Bool.not_true, Bool.false_eq_true, if_false]
    rw [get_word_yield_start_block_range, hlo, hhi]
    dsimp only
    rw [if_neg (by simp), hseg, pyRangeZ_fwd _ _ _ hbs]
    apply ywlGo_eq_dedup
    · simp [hlen_words]
    · intro j hj
      have hj' : j < segCount st L := by simpa using hj
      rw [map_range_getD _ _ _ _ hj']
      rw [wordsOfSeg, map_range_getD _ _ _ _ hj']
      exact blockWord_spec st L hwf hj'
  · rw [yield_words_with_length, hv]
    simp only [Bool.not_true, Bool.false_eq_true, if_false]
    rw [get_word_yield_start_block_range, hlo, hhi]
    dsimp only
    rw [if_pos rfl, hseg, pyRangeZ_rev _ _ _ hbs]
    rw [← dedupCons_reverse lexLtB lexLtB_irrefl lexLtB_trans
      lexLtB_trichotomy (wordsOfSeg st L) (wordsOfSeg_chain st L hwf)]
    apply ywlGo_eq_dedup
    · simp [hlen_words]
    · intro j hj
      have hj' : j < segCount st L := by simpa using hj
      rw [map_range_reverse_getD _ _ _ _ hj']
      rw [wordsOfSeg, map_range_reverse_getD _ _ _ _
        (by simpa [hlen_words] using hj')]
      exact blockWord_spec st L hwf (by omega)

/-- C7: for every valid word length whose segment is sorted ascending by
(word bytes, category id), `yield_words_with_length(L, False)` yields
strictly increasing words, and `yield_words_with_length(L, True)` yields
exactly the reverse of that forward sequence. -/
theorem claim7_per_length_ordering (st : CEFRData) (L : ℕ)
    (hv : is_word_len_valid st L = true) (hwf : SegmentWF st L) :
    ∃ F, yield_words_with_length st L false = .ok F ∧
      List.Pairwise lexLt F ∧
      yield_words_with_length st L true = .ok F.reverse := by
  refine ⟨dedupCons none (wordsOfSeg st L), (ywl_spec st L hv hwf).1, ?_,
    (ywl_spec st L hv hwf).2⟩
  exact dedup_pairwise lexLtB lexLtB_irrefl lexLtB_trans lexLtB_trichotomy
    (wordsOfSeg st L) (wordsOfSeg_chain st L hwf)

/-- Witness for C7 on a concrete two-word segment. -/
theorem claim7_per_length_ordering_witness :
    ∃ F, yield_words_with_length
        ⟨[0, 15], [97,1,0, 97,2,0, 97,3,0, 97,4,250, 98,0,0]⟩ 1 false =
        .ok F ∧
      List.Pairwise lexLt F ∧
      yield_words_with_length
        ⟨[0, 15], [97,1,0, 97,2,0, 97,3,0, 97,4,250, 98,0,0]⟩ 1 true =
        .ok F.reverse :=
  claim7_per_length_ordering
    ⟨[0, 15], [97,1,0, 97,2,0, 97,3,0, 97,4,250, 98,0,0]⟩ 1
    (by decide) (by decide)

/-- Specification of the first-difference scan of
`get_word_count_for_length`: on a readable block whose word is `ws`, it
returns `none` exactly when the block's word equals `last_word`, and
otherwise the first differing byte index together with a readable tail. -/
theorem scanDiff_spec (data : List ℕ) :
    ∀ (ws ls : List ℕ) (i : ℤ) (j : ℕ),
      ls.length = ws.length →
      wordAt data (i + j) ws.length = some ws →
      (ls = ws ∧ scanDiff data i ls j = .ok none) ∨
      (∃ d, d < ws.length ∧ scanDiff data i ls j = .ok (some (j + d)) ∧
        ls.take d = ws.take d ∧ ls ≠ ws ∧
        wordAt data (i + j + d) (ws.length - d) = some (ws.drop d)) := by
  intro ws
  induction ws with
  | nil =>
    intro ls i j hlen _
    left
    refine ⟨List.length_eq_zero.mp hlen, ?_⟩
    have : ls = [] := List.length_eq_zero.mp hlen
    subst this
    rfl
  | cons c wt ih =>
    intro ls i j hlen hword
    cases ls with
    | nil => simp at hlen
    | cons l0 lt =>
      rw [List.length_cons, wordAt] at hword
      cases hd : dataAt data (i + j) with
      | none =>
        rw [hd] at hword
        cases hword
      | some cur =>
        rw [hd] at hword
        dsimp only at hword
        cases hw : wordAt data (i + j + 1) wt.length with
        | none =>
          rw [hw] at hword
          cases hword
        | some rest =>
          rw [hw] at hword
          dsimp only at hword
          have hcur : cur = c ∧ rest = wt := by
            cases hword
            exact ⟨rfl, rfl⟩
          rw [hcur.1] at hd
          rw [hcur.2] at hw
          rw [scanDiff, hd]
          dsimp only
          by_cases hne : c ≠ l0
          · rw [if_pos hne]
            right
            refine ⟨0, by simp, by simp, by simp, ?_, ?_⟩
            · intro hcontra
              cases hcontra
              exact hne rfl
            · have harith : i + (j : ℤ) + (0 : ℕ) = i + j := by push_cast; ring
              rw [harith]
              simpa [wordAt, hd, hw] using rfl
          · rw [if_neg hne]
            have hl0 : l0 = c := by omega
            have hword' : wordAt data (i + ((j + 1 : ℕ) : ℤ)) wt.length =
                some wt := by
              have harith : i + ((j + 1 : ℕ) : ℤ) = i + j + 1 := by
                push_cast; ring
              rw [harith]
              exact hw
            rcases ih lt i (j + 1) (by simpa using hlen) hword' with
              ⟨heq, hres⟩ | ⟨d, hd1, hres, htake, hne2, hword2⟩
            · left
              subst heq
              rw [hl0]
              exact ⟨rfl, hres⟩
            · right
              refine ⟨d + 1, by simp only [List.length_cons]; omega, ?_, ?_, ?_, ?_⟩
              · rw [hres]
                congr 2
                omega
              · simp [List.take_succ_cons, htake, hl0]
              · intro hcontra
                apply hne2
                exact (List.cons.injEq _ _ _ _).mp hcontra |>.2
              · have harith : i + (j : ℤ) + ((d + 1 : ℕ) : ℤ) =
                    i + ((j + 1 : ℕ) : ℤ) + d := by push_cast; ring
                rw [harith]
                have hlen2 : (c :: wt).length - (d + 1) = wt.length - d := by
                  simp
                rw [hlen2]
                simpa using hword2

/-- The counting loop of `get_word_count_for_length` counts exactly the
consecutive-dedup survivors, starting from the `last_word` state it is
given. -/
theorem gwclGo_spec (data : List ℕ) (L : ℕ) :
    ∀ (ps : List ℤ) (ws : List (List ℕ)) (last : List ℕ) (counter : ℕ),
      ps.length = ws.length →
      (∀ j, j < ps.length →
        wordAt data (ps.getD j 0) L = some (ws.getD j [])) →
      last.length = L →
      gwclGo data L ps last counter =
        .ok (counter + (dedupCons (some last) ws).length) := by
  intro ps
  induction ps with
  | nil =>
    intro ws last counter hlen _ _
    cases ws with
    | nil => simp [gwclGo, dedupCons]
    | cons w wt => simp at hlen
  | cons p pt ih =>
    intro ws last counter hlen hpt hlast
    cases ws with
    | nil => simp at hlen
    | cons w wt =>
      have h0 : wordAt data p L = some w := by
        have := hpt 0 (by simp)
        simpa using this
      have hwlen : w.length = L := wordAt_length data L p w h0
      have hlen' : pt.length = wt.length := by simpa using hlen
      have hpt' : ∀ j, j < pt.length →
          wordAt data (pt.getD j 0) L = some (wt.getD j []) := by
        intro j hj
        have := hpt (j + 1) (by simpa using Nat.succ_lt_succ hj)
        simpa only [List.getD_cons_succ] using this
      have hword0 : wordAt data (p + ((0 : ℕ) : ℤ)) w.length = some w := by
        rw [hwlen]
        simpa using h0
      rw [gwclGo]
      rcases scanDiff_spec data w last p 0 (by omega) hword0 with
        ⟨heq, hres⟩ | ⟨d, hd1, hres, htake, hne, hword2⟩
      · rw [hres]
        dsimp only
        rw [ih wt last counter hlen' hpt' hlast]
        congr 2
        rw [dedupCons, if_neg (by simp [heq])]
      · rw [hres]
        dsimp only
        simp only [Nat.zero_add]
        have hword2' : wordAt data (p + (d : ℤ)) (L - d) =
            some (w.drop d) := by
          rw [← hwlen]
          have harith : p + (d : ℤ) = p + ((0 : ℕ) : ℤ) + (d : ℤ) := by
            push_cast
            ring
          rw [harith]
          exact hword2
        rw [hword2']
        dsimp only
        have hlast2 : last.take d ++ w.drop d = w := by
          rw [htake]
          exact List.take_append_drop d w
        rw [hlast2, ih wt w (counter + 1) hlen' hpt' hwlen]
        rw [dedupCons, if_pos (by simp; intro hcontra; exact hne hcontra.symm)]
        congr 1
        simp only [List.length_cons]
        omega

/-- When the previously yielded word cannot occur in the input, the
initial dedup state is irrelevant. -/
theorem dedupCons_some_eq_none (ws : List (List ℕ)) (w0 : List ℕ)
    (h : ∀ x ∈ ws, x ≠ w0) :
    dedupCons (some w0) ws = dedupCons none ws := by
  cases ws with
  | nil => rfl
  | cons w rest =>
    rw [dedupCons, dedupCons,
      if_pos (show some w ≠ some w0 by
        simpa using h w (List.mem_cons_self w rest)),
      if_pos (show some w ≠ (none : Option (List ℕ)) by simp)]

/-- No block word of a well-formed segment is the all-zero initial
`last_word` buffer. -/
theorem wordsOfSeg_ne_zero (st : CEFRData) (L : ℕ) (hL : 0 < L)
    (hwf : SegmentWF st L) :
    ∀ x ∈ wordsOfSeg st L, x ≠ List.replicate L 0 := by
  intro x hx hcontra
  rw [wordsOfSeg] at hx
  obtain ⟨k, hk, rfl⟩ := List.mem_map.mp hx
  have hk' : k < segCount st L := List.mem_range.mp hk
  have hlower := hwf.2.2.2.2.1 k hk'
  have h0mem : (0 : ℕ) ∈ blockWord st L k := by
    rw [hcontra]
    exact List.mem_replicate.mpr ⟨by omega, rfl⟩
  have := hlower 0 h0mem
  simp [is_lowercase, asciiA] at this

/-- Specification of `get_word_count_for_length` on a well-formed sorted
segment: it counts the consecutive-dedup survivors. -/
theorem gwc_spec (st : CEFRData) (L : ℕ)
    (hv : is_word_len_valid st L = true) (hwf : SegmentWF st L) :
    get_word_count_for_length st L =
      .ok ((dedupCons none (wordsOfSeg st L)).length) := by
  have hv' : 0 < L ∧ L < st.wlp.length := by
    simpa [is_word_len_valid] using hv
  obtain ⟨hlo, hhi⟩ := wlpAt_valid st hv'.1 hv'.2
  have hbs : (0 : ℤ) < (L : ℤ) + 2 := by positivity
  have hseg := segHi_eq st L hwf
  have hlen_words : (wordsOfSeg st L).length = segCount st L := by
    simp [wordsOfSeg]
  rw [get_word_count_for_length, hv]
  simp only [Bool.not_true, Bool.false_eq_true, if_false]
  rw [get_word_yield_start_block_range, hlo, hhi]
  dsimp only
  rw [if_neg (by simp), hseg, pyRangeZ_fwd _ _ _ hbs]
  dsimp only
  rw [gwclGo_spec st.data L _ (wordsOfSeg st L) _ 0
    (by simp [hlen_words])
    (by
      intro j hj
      have hj' : j < segCount st L := by simpa using hj
      rw [map_range_getD _ _ _ _ hj', wordsOfSeg, map_range_getD _ _ _ _ hj']
      exact blockWord_spec st L hwf hj')
    (by simp)]
  rw [dedupCons_some_eq_none _ _ (wordsOfSeg_ne_zero st L hv'.1 hwf)]
  simp

/-- C8: for every valid word length whose segment is well formed and
sorted, `get_word_count_for_length(L)` equals the number of (pairwise
distinct) words yielded by `yield_words_with_length(L, False)`; for every
invalid length the count is 0 and the yield is empty. -/
theorem claim8_count_matches_yield (st : CEFRData) (L : ℕ)
    (hv : is_word_len_valid st L = true) (hwf : SegmentWF st L) :
    (∃ F, yield_words_with_length st L false = .ok F ∧
      List.Pairwise lexLt F ∧
      get_word_count_for_length st L = .ok F.length) ∧
    (∀ n, is_word_len_valid st n = false →
      get_word_count_for_length st n = .ok 0 ∧
      yield_words_with_length st n false = .ok []) := by
  constructor
  · refine ⟨dedupCons none (wordsOfSeg st L), (ywl_spec st L hv hwf).1, ?_,
      gwc_spec st L hv hwf⟩
    exact dedup_pairwise lexLtB lexLtB_irrefl lexLtB_trans lexLtB_trichotomy
      (wordsOfSeg st L) (wordsOfSeg_chain st L hwf)
  · intro n hn
    constructor
    · rw [get_word_count_for_length, hn]
      rfl
    · rw [yield_words_with_length, hn]
      rfl

/-- Witness for C8 on a concrete two-word segment. -/
theorem claim8_count_matches_yield_witness :
    (∃ F, yield_words_with_length
        ⟨[0, 15], [97,1,0, 97,2,0, 97,3,0, 97,4,250, 98,0,0]⟩ 1 false =
        .ok F ∧
      List.Pairwise lexLt F ∧
      get_word_count_for_length
        ⟨[0, 15], [97,1,0, 97,2,0, 97,3,0, 97,4,250, 98,0,0]⟩ 1 =
        .ok F.length) ∧
    (∀ n, is_word_len_valid
        ⟨[0, 15], [97,1,0, 97,2,0, 97,3,0, 97,4,250, 98,0,0]⟩ n = false →
      get_word_count_for_length
        ⟨[0, 15], [97,1,0, 97,2,0, 97,3,0, 97,4,250, 98,0,0]⟩ n = .ok 0 ∧
      yield_words_with_length
        ⟨[0, 15], [97,1,0, 97,2,0, 97,3,0, 97,4,250, 98,0,0]⟩ n false =
        .ok []) :=
  claim8_count_matches_yield
    ⟨[0, 15], [97,1,0, 97,2,0, 97,3,0, 97,4,250, 98,0,0]⟩ 1
    (by decide) (by decide)

/-- A readable position's `dataAt` value is `some` of its default read. -/
theorem dataAt_spec (data : List ℕ) (i : ℤ) (h0 : 0 ≤ i)
    (h1 : i < (data.length : ℤ)) :
    dataAt data i = some ((dataAt data i).getD 0) := by
  rw [dataAt, if_pos h0, List.getElem?_eq_getElem (by omega)]
  rfl

/-- The category byte of an in-range block is readable. -/
theorem blockCat_spec (st : CEFRData) (L : ℕ) (hwf : SegmentWF st L)
    {k : ℕ} (hk : k < segCount st L) :
    dataAt st.data (segPos st L k + L) = some (blockCat st L k) := by
  have hseg := segHi_eq st L hwf
  have hlen : (segHi st L : ℤ) ≤ (st.data.length : ℤ) := by
    exact_mod_cast hwf.2.2.1
  have hbound : segPos st L k + L < (st.data.length : ℤ) := by
    rw [segPos] at *
    have : (segLo st L : ℤ) + ((L : ℤ) + 2) * k + ((L : ℤ) + 2) ≤
        (segLo st L : ℤ) + ((L : ℤ) + 2) * (segCount st L : ℕ) := by
      have hk' : (k : ℤ) + 1 ≤ (segCount st L : ℤ) := by exact_mod_cast hk
      nlinarith [hk']
    omega
  have h0 : 0 ≤ segPos st L k + L := by
    rw [segPos]
    positivity
  rw [blockCat]
  exact dataAt_spec st.data _ h0 hbound

/-- The level byte of an in-range block is readable. -/
theorem blockLevel_spec (st : CEFRData) (L : ℕ) (hwf : SegmentWF st L)
    {k : ℕ} (hk : k < segCount st L) :
    dataAt st.data (segPos st L k + L + 1) = some (blockLevel st L k) := by
  have hseg := segHi_eq st L hwf
  have hlen : (segHi st L : ℤ) ≤ (st.data.length : ℤ) := by
    exact_mod_cast hwf.2.2.1
  have hbound : segPos st L k + L + 1 < (st.data.length : ℤ) := by
    rw [segPos] at *
    have : (segLo st L : ℤ) + ((L : ℤ) + 2) * k + ((L : ℤ) + 2) ≤
        (segLo st L : ℤ) + ((L : ℤ) + 2) * (segCount st L : ℕ) := by
      have hk' : (k : ℤ) + 1 ≤ (segCount st L : ℤ) := by exact_mod_cast hk
      nlinarith [hk']
    omega
  have h0 : 0 ≤ segPos st L k + L + 1 := by
    rw [segPos]
    positivity
  rw [blockLevel]
  exact dataAt_spec st.data _ h0 hbound

/-- The equality scan of the neighbor loops agrees with the word bytes. -/
theorem matchWordAt_of_wordAt (data : List ℕ) :
    ∀ (w v : List ℕ) (i : ℤ), wordAt data i w.length = some v →
      matchWordAt data w i = some (decide (v = w)) := by
  intro w
  induction w with
  | nil =>
    intro v i h
    simp only [List.length_nil, wordAt] at h
    cases h
    rfl
  | cons c rest ih =>
    intro v i h
    rw [List.length_cons, wordAt] at h
    cases hd : dataAt data i with
    | none =>
      rw [hd] at h
      cases h
    | some c2 =>
      rw [hd] at h
      dsimp only at h
      cases hw : wordAt data (i + 1) rest.length with
      | none =>
        rw [hw] at h
        cases h
      | some v2 =>
        rw [hw] at h
        dsimp only at h
        cases h
        rw [matchWordAt, hd]
        dsimp only
        by_cases hne : c2 ≠ c
        · rw [if_pos hne]
          have : (c2 :: v2 = c :: rest) = False := by
            simp only [List.cons.injEq, eq_iff_iff, iff_false, not_and]
            intro hcontra
            exact absurd hcontra hne
          simp [this]
        · rw [if_neg hne]
          have hc : c2 = c := by omega
          subst hc
          rw [ih v2 (i + 1) hw]
          congr 1
          simp

/-- The three-way comparison of the binary search agrees with the
lexicographic order of the block word against the query. -/
theorem cmpWordAt_of_wordAt (data : List ℕ) :
    ∀ (w v : List ℕ) (i : ℤ), wordAt data i w.length = some v →
      cmpWordAt data w i = some
        (if lexLtB v w = true then .lt
         else if lexLtB w v = true then .gt else .eq) := by
  intro w
  induction w with
  | nil =>
    intro v i h
    simp only [List.length_nil, wordAt] at h
    cases h
    rfl
  | cons c rest ih =>
    intro v i h
    rw [List.length_cons, wordAt] at h
    cases hd : dataAt data i with
    | none =>
      rw [hd] at h
      cases h
    | some c2 =>
      rw [hd] at h
      dsimp only at h
      cases hw : wordAt data (i + 1) rest.length with
      | none =>
        rw [hw] at h
        cases h
      | some v2 =>
        rw [hw] at h
        dsimp only at h
        cases h
        rw [cmpWordAt, hd]
        dsimp only
        by_cases h1 : c2 < c
        · rw [if_pos h1]
          rw [show lexLtB (c2 :: v2) (c :: rest) = true by
            rw [lexLtB, if_pos h1]]
          rfl
        · rw [if_neg h1]
          by_cases h2 : c < c2
          · rw [if_pos h2]
            rw [show lexLtB (c2 :: v2) (c :: rest) = false by
                rw [lexLtB, if_neg h1, if_pos h2],
              show lexLtB (c :: rest) (c2 :: v2) = true by
                rw [lexLtB, if_pos h2]]
            rfl
          · rw [if_neg h2]
            have hc : c2 = c := by omega
            subst hc
            rw [ih v2 (i + 1) hw]
            rw [show lexLtB (c2 :: v2) (c2 :: rest) = lexLtB v2 rest by
                rw [lexLtB, if_neg (lt_irrefl c2), if_neg (lt_irrefl c2)],
              show lexLtB (c2 :: rest) (c2 :: v2) = lexLtB rest v2 by
                rw [lexLtB, if_neg (lt_irrefl c2), if_neg (lt_irrefl c2)]]

/-- The block-aligned midpoint is strictly below the right bound when the
interval is nontrivial. -/
theorem mid_lt {l r bs : ℤ} (hlr : l < r) (hbs : 0 < bs) :
    ((r - l).fdiv bs).fdiv 2 * bs + l < r := by
  have h1 : (r - l).fdiv bs = (r - l) / bs := Int.fdiv_eq_ediv _ (le_of_lt hbs)
  have h2 : ((r - l) / bs).fdiv 2 = (r - l) / bs / 2 :=
    Int.fdiv_eq_ediv _ (by norm_num)
  rw [h1, h2]
  set k : ℤ := (r - l) / bs with hk
  have hk0 : 0 ≤ k := Int.ediv_nonneg (by omega) (le_of_lt hbs)
  have hkbs : k * bs ≤ r - l := Int.ediv_mul_le _ (ne_of_gt hbs)
  by_cases hk1 : k = 0
  · rw [hk1]
    simp
    omega
  · have hk2 : 1 ≤ k := by omega
    have hhalf : k / 2 ≤ k - 1 := by omega
    have h4 : k / 2 * bs ≤ (k - 1) * bs :=
      mul_le_mul_of_nonneg_right hhalf (le_of_lt hbs)
    have h5 : (k - 1) * bs = k * bs - bs := by ring
    omega

/-- Completeness of the binary search: if the segment splits into a
strictly smaller region, a contiguous matching run, and a strictly greater
region, the search returns some block of the run. -/
theorem searchLoop_finds (data w : List ℕ) (lo hi A B : ℤ)
    (hlt : ∀ p, lo ≤ p → p < A → ((w.length : ℤ) + 2) ∣ (p - lo) →
      cmpWordAt data w p = some .lt)
    (heq : ∀ p, A ≤ p → p < B → ((w.length : ℤ) + 2) ∣ (p - lo) →
      cmpWordAt data w p = some .eq)
    (hgt : ∀ p, B ≤ p → p < hi → ((w.length : ℤ) + 2) ∣ (p - lo) →
      cmpWordAt data w p = some .gt)
    (hA : ((w.length : ℤ) + 2) ∣ (A - lo))
    (hB : ((w.length : ℤ) + 2) ∣ (B - lo))
    (hloA : lo ≤ A) (hrun : A + ((w.length : ℤ) + 2) ≤ B) (hBhi : B ≤ hi) :
    ∀ (fuel : ℕ) (l r : ℤ), lo ≤ l → ((w.length : ℤ) + 2) ∣ (l - lo) →
      l ≤ B - ((w.length : ℤ) + 2) → A ≤ r → l ≤ r → r ≤ hi →
      fuel ≥ (r - l).toNat + 1 →
      ∃ p, (searchLoop data w fuel l r).2 = .ok p ∧ A ≤ p ∧ p < B ∧
        ((w.length : ℤ) + 2) ∣ (p - lo) := by
  intro fuel
  induction fuel with
  | zero =>
    intro l r _ _ _ _ _ _ hfuel
    omega
  | succ n ih =>
    intro l r hl hdvd hlB hAr hlr hrhi hfuel
    rw [searchLoop, if_pos hlr]
    dsimp only
    have hbs : (0 : ℤ) < (w.length : ℤ) + 2 := by positivity
    have hmid := mid_spec hlr hbs
    set bs : ℤ := (w.length : ℤ) + 2 with hbs_def
    set m : ℤ := ((r - l).fdiv bs).fdiv 2 * bs + l with hm_def
    have hmlo : lo ≤ m := le_trans hl hmid.1
    have hmdvd : bs ∣ (m - lo) := by
      have harith : m - lo = (l - lo) + ((r - l).fdiv bs).fdiv 2 * bs := by
        rw [hm_def]; ring
      rw [harith]
      exact dvd_add hdvd (Dvd.intro_left _ rfl)
    have hmhi : m < hi := by
      by_cases hlr2 : l < r
      · have := mid_lt hlr2 hbs
        omega
      · have hl_eq : l = r := by omega
        have : m = l := by
          rw [hm_def, hl_eq]
          simp
        omega
    by_cases hcase1 : m < A
    · rw [hlt m hmlo hcase1 hmdvd]
      dsimp only
      have hstep : m + bs ≤ A := by
        have hdvdAm : bs ∣ (A - m) := by
          have : A - m = (A - lo) - (m - lo) := by ring
          rw [this]
          exact dvd_sub hA hmdvd
        have := Int.le_of_dvd (by omega) hdvdAm
        omega
      have hrec := ih (m + bs) r (by omega)
        (by
          have harith : m + bs - lo = (m - lo) + bs := by ring
          rw [harith]
          exact dvd_add hmdvd dvd_rfl)
        (by omega) hAr (by omega) hrhi (by omega)
      obtain ⟨p, hp, hp1, hp2, hp3⟩ := hrec
      exact ⟨p, hp, hp1, hp2, hp3⟩
    · by_cases hcase2 : m < B
      · rw [heq m (by omega) hcase2 hmdvd]
        dsimp only
        exact ⟨m, rfl, by omega, hcase2, hmdvd⟩
      · rw [hgt m (by omega) hmhi hmdvd]
        dsimp only
        have hstep : B ≤ m := by omega
        have hrec := ih l (m - bs) hl hdvd hlB (by omega) (by omega)
          (by omega) (by omega)
        obtain ⟨p, hp, hp1, hp2, hp3⟩ := hrec
        exact ⟨p, hp, hp1, hp2, hp3⟩

/-- The backward category-checking scan, started inside a word's contiguous
run whose categories all differ from the requested one, accumulates exactly
the levels of the blocks strictly before the start position down to the
run's start. -/
theorem scanBackCheck_run (st : CEFRData) (w : List ℕ) (req : ℕ)
    (hwf : SegmentWF st w.length) (a b : ℕ)
    (hb : b ≤ segCount st w.length)
    (hrun : ∀ k, a ≤ k → k < b → blockWord st w.length k = w)
    (hbefore : ∀ k, k < a → lexLtB (blockWord st w.length k) w = true)
    (habsent : ∀ k, a ≤ k → k < b → blockCat st w.length k ≠ req) :
    ∀ (fuel j founded acc : ℕ), a ≤ j → j < b → fuel ≥ j + 1 →
      scanBackCheck st.data w req (segLo st w.length) fuel
          (segPos st w.length j) founded acc =
        .ok (none, founded + (j - a),
          acc + ∑ k in Finset.Ico a j, blockLevel st w.length k) := by
  intro fuel
  induction fuel with
  | zero =>
    intro j founded acc _ _ hfuel
    omega
  | succ n ih =>
    intro j founded acc haj hjb hfuel
    rw [scanBackCheck]
    by_cases hj0 : j = 0
    · subst hj0
      have ha0 : a = 0 := by omega
      rw [if_pos (by rw [segPos]; push_cast; omega)]
      rw [ha0]
      simp
    · have hjge : (1 : ℤ) ≤ (j : ℤ) := by exact_mod_cast Nat.one_le_iff_ne_zero.mpr hj0
      have hbs : (0 : ℤ) < (w.length : ℤ) + 2 := by positivity
      have hm' : segPos st w.length j - ((w.length : ℤ) + 2) =
          segPos st w.length (j - 1) := by
        rw [segPos, segPos]
        have hcast : ((j - 1 : ℕ) : ℤ) = (j : ℤ) - 1 := by omega
        rw [hcast]
        ring
      have hguard : ¬(segPos st w.length j - ((w.length : ℤ) + 2) <
          (segLo st w.length : ℤ)) := by
        rw [segPos]
        have : ((w.length : ℤ) + 2) * 1 ≤ ((w.length : ℤ) + 2) * (j : ℤ) :=
          mul_le_mul_of_nonneg_left hjge (by omega)
        omega
      rw [if_neg hguard]
      have hj1n : j - 1 < segCount st w.length := by omega
      by_cases hja : j = a
      · have hj1a : j - 1 < a := by omega
        have hmw : matchWordAt st.data w
            (segPos st w.length j - ((w.length : ℤ) + 2)) = some false := by
          rw [hm']
          rw [matchWordAt_of_wordAt st.data w (blockWord st w.length (j - 1))
            _ (blockWord_spec st w.length hwf hj1n)]
          have hne : blockWord st w.length (j - 1) ≠ w := by
            intro hcontra
            have := hbefore (j - 1) hj1a
            rw [hcontra, lexLtB_irrefl] at this
            cases this
          simp [hne]
        rw [hmw]
        dsimp only
        rw [hja]
        simp
      · have hj1a : a ≤ j - 1 := by omega
        have hmw : matchWordAt st.data w
            (segPos st w.length j - ((w.length : ℤ) + 2)) = some true := by
          rw [hm']
          rw [matchWordAt_of_wordAt st.data w (blockWord st w.length (j - 1))
            _ (blockWord_spec st w.length hwf hj1n)]
          simp [hrun (j - 1) hj1a (by omega)]
        rw [hmw]
        dsimp only
        rw [hm', blockCat_spec st w.length hwf hj1n,
          blockLevel_spec st w.length hwf hj1n]
        dsimp only
        rw [if_neg (habsent (j - 1) hj1a (by omega))]
        rw [ih (j - 1) (founded + 1) (acc + blockLevel st w.length (j - 1))
          (by omega) (by omega) (by omega)]
        have hcount : founded + 1 + (j - 1 - a) = founded + (j - a) := by
          omega
        have hsum : acc + blockLevel st w.length (j - 1) +
            ∑ k in Finset.Ico a (j - 1), blockLevel st w.length k =
            acc + ∑ k in Finset.Ico a j, blockLevel st w.length k := by
          have hj : j - 1 + 1 = j := by omega
          have hstep : ∑ k in Finset.Ico a j, blockLevel st w.length k =
              (∑ k in Finset.Ico a (j - 1), blockLevel st w.length k) +
                blockLevel st w.length (j - 1) := by
            conv_lhs => rw [← hj]
            exact Finset.sum_Ico_succ_top (by omega) _
          rw [hstep]
          ring
        rw [hcount, hsum]

/-- The forward category-checking scan, started inside a word's contiguous
run whose categories all differ from the requested one, accumulates exactly
the levels of the blocks strictly after the start position up to the run's
end. -/
theorem scanFwdCheck_run (st : CEFRData) (w : List ℕ) (req : ℕ)
    (hwf : SegmentWF st w.length) (a b : ℕ)
    (hb : b ≤ segCount st w.length)
    (hrun : ∀ k, a ≤ k → k < b → blockWord st w.length k = w)
    (hafter : ∀ k, b ≤ k → k < segCount st w.length →
      lexLtB w (blockWord st w.length k) = true)
    (habsent : ∀ k, a ≤ k → k < b → blockCat st w.length k ≠ req) :
    ∀ (fuel j founded acc : ℕ), a ≤ j → j < b → fuel ≥ b - j →
      scanFwdCheck st.data w req (segHi st w.length) fuel
          (segPos st w.length j) founded acc =
        .ok (none, founded + (b - 1 - j),
          acc + ∑ k in Finset.Ico (j + 1) b, blockLevel st w.length k) := by
  intro fuel
  induction fuel with
  | zero =>
    intro j founded acc _ hjb hfuel
    omega
  | succ n ih =>
    intro j founded acc haj hjb hfuel
    rw [scanFwdCheck]
    have hbs : (0 : ℤ) < (w.length : ℤ) + 2 := by positivity
    have hseg := segHi_eq st w.length hwf
    have hm' : segPos st w.length j + ((w.length : ℤ) + 2) =
        segPos st w.length (j + 1) := by
      rw [segPos, segPos]
      push_cast
      ring
    by_cases hjb1 : j + 1 = b
    · by_cases hbn : b = segCount st w.length
      · have hguard : (segHi st w.length : ℤ) ≤
            segPos st w.length j + ((w.length : ℤ) + 2) := by
          rw [hm', segPos, hseg, hjb1, hbn]
        rw [if_pos hguard]
        rw [show b - 1 - j = 0 by omega]
        rw [show Finset.Ico (j + 1) b = ∅ by
          rw [Finset.Ico_eq_empty_iff]
          omega]
        simp
      · have hbn' : b < segCount st w.length := by omega
        have hguard : ¬((segHi st w.length : ℤ) ≤
            segPos st w.length j + ((w.length : ℤ) + 2)) := by
          rw [hm', segPos, hseg, hjb1]
          have hcast : (b : ℤ) + 1 ≤ (segCount st w.length : ℤ) := by
            exact_mod_cast hbn'
          intro hcontra
          nlinarith
        rw [if_neg hguard]
        have hmw : matchWordAt st.data w
            (segPos st w.length j + ((w.length : ℤ) + 2)) = some false := by
          rw [hm', hjb1]
          rw [matchWordAt_of_wordAt st.data w (blockWord st w.length b)
            _ (blockWord_spec st w.length hwf hbn')]
          have hne : blockWord st w.length b ≠ w := by
            intro hcontra
            have := hafter b (le_refl b) hbn'
            rw [hcontra, lexLtB_irrefl] at this
            cases this
          simp [hne]
        rw [hmw]
        dsimp only
        rw [show b - 1 - j = 0 by omega]
        rw [show Finset.Ico (j + 1) b = ∅ by
          rw [Finset.Ico_eq_empty_iff]
          omega]
        simp
    · have hj1b : j + 1 < b := by omega
      have hj1n : j + 1 < segCount st w.length := by omega
      have hguard : ¬((segHi st w.length : ℤ) ≤
          segPos st w.length j + ((w.length : ℤ) + 2)) := by
        rw [hm', segPos, hseg]
        have hcast : (j : ℤ) + 1 + 1 ≤ (segCount st w.length : ℤ) := by
          exact_mod_cast hj1n
        have hlt : ((w.length : ℤ) + 2) * ((j : ℤ) + 1) <
            ((w.length : ℤ) + 2) * (segCount st w.length : ℤ) :=
          mul_lt_mul_of_pos_left (by omega) hbs
        intro hcontra
        push_cast at hcontra
        linarith
      rw [if_neg hguard]
      have hmw : matchWordAt st.data w
          (segPos st w.length j + ((w.length : ℤ) + 2)) = some true := by
        rw [hm']
        rw [matchWordAt_of_wordAt st.data w (blockWord st w.length (j + 1))
          _ (blockWord_spec st w.length hwf hj1n)]
        simp [hrun (j + 1) (by omega) hj1b]
      rw [hmw]
      dsimp only
      rw [hm', blockCat_spec st w.length hwf hj1n,
        blockLevel_spec st w.length hwf hj1n]
      dsimp only
      rw [if_neg (habsent (j + 1) (by omega) hj1b)]
      rw [ih (j + 1) (founded + 1) (acc + blockLevel st w.length (j + 1))
        (by omega) hj1b (by omega)]
      have hcount : founded + 1 + (b - 1 - (j + 1)) = founded + (b - 1 - j) := by
        omega
      have hsum : acc + blockLevel st w.length (j + 1) +
          ∑ k in Finset.Ico (j + 1 + 1) b, blockLevel st w.length k =
          acc + ∑ k in Finset.Ico (j + 1) b, blockLevel st w.length k := by
        rw [Finset.sum_eq_sum_Ico_succ_bot hj1b]
        ring
      rw [hcount, hsum]

/-- The accumulate-only backward scan, started inside a word's contiguous
run, accumulates exactly the levels of the blocks strictly before the start
position down to the run's start. -/
theorem scanBackAcc_run (st : CEFRData) (w : List ℕ)
    (hwf : SegmentWF st w.length) (a b : ℕ)
    (hb : b ≤ segCount st w.length)
    (hrun : ∀ k, a ≤ k → k < b → blockWord st w.length k = w)
    (hbefore : ∀ k, k < a → lexLtB (blockWord st w.length k) w = true) :
    ∀ (fuel j founded acc : ℕ), a ≤ j → j < b → fuel ≥ j + 1 →
      scanBackAcc st.data w (segLo st w.length) fuel
          (segPos st w.length j) founded acc =
        .ok (founded + (j - a),
          acc + ∑ k in Finset.Ico a j, blockLevel st w.length k) := by
  intro fuel
  induction fuel with
  | zero =>
    intro j founded acc _ _ hfuel
    omega
  | succ n ih =>
    intro j founded acc haj hjb hfuel
    rw [scanBackAcc]
    by_cases hj0 : j = 0
    · subst hj0
      have ha0 : a = 0 := by omega
      rw [if_pos (by rw [segPos]; push_cast; omega)]
      rw [ha0]
      simp
    · have hjge : (1 : ℤ) ≤ (j : ℤ) := by
        exact_mod_cast Nat.one_le_iff_ne_zero.mpr hj0
      have hbs : (0 : ℤ) < (w.length : ℤ) + 2 := by positivity
      have hm' : segPos st w.length j - ((w.length : ℤ) + 2) =
          segPos st w.length (j - 1) := by
        rw [segPos, segPos]
        have hcast : ((j - 1 : ℕ) : ℤ) = (j : ℤ) - 1 := by omega
        rw [hcast]
        ring
      have hguard : ¬(segPos st w.length j - ((w.length : ℤ) + 2) <
          (segLo st w.length : ℤ)) := by
        rw [segPos]
        have : ((w.length : ℤ) + 2) * 1 ≤ ((w.length : ℤ) + 2) * (j : ℤ) :=
          mul_le_mul_of_nonneg_left hjge (by omega)
        omega
      rw [if_neg hguard]
      have hj1n : j - 1 < segCount st w.length := by omega
      by_cases hja : j = a
      · have hj1a : j - 1 < a := by omega
        have hmw : matchWordAt st.data w
            (segPos st w.length j - ((w.length : ℤ) + 2)) = some false := by
          rw [hm']
          rw [matchWordAt_of_wordAt st.data w (blockWord st w.length (j - 1))
            _ (blockWord_spec st w.length hwf hj1n)]
          have hne : blockWord st w.length (j - 1) ≠ w := by
            intro hcontra
            have := hbefore (j - 1) hj1a
            rw [hcontra, lexLtB_irrefl] at this
            cases this
          simp [hne]
        rw [hmw]
        dsimp only
        rw [hja]
        simp
      · have hj1a : a ≤ j - 1 := by omega
        have hmw : matchWordAt st.data w
            (segPos st w.length j - ((w.length : ℤ) + 2)) = some true := by
          rw [hm']
          rw [matchWordAt_of_wordAt st.data w (blockWord st w.length (j - 1))
            _ (blockWord_spec st w.length hwf hj1n)]
          simp [hrun (j - 1) hj1a (by omega)]
        rw [hmw]
        dsimp only
        rw [hm', blockLevel_spec st w.length hwf hj1n]
        dsimp only
        rw [ih (j - 1) (founded + 1) (acc + blockLevel st w.length (j - 1))
          (by omega) (by omega) (by omega)]
        have hcount : founded + 1 + (j - 1 - a) = founded + (j - a) := by
          omega
        have hsum : acc + blockLevel st w.length (j - 1) +
            ∑ k in Finset.Ico a (j - 1), blockLevel st w.length k =
            acc + ∑ k in Finset.Ico a j, blockLevel st w.length k := by
          have hj : j - 1 + 1 = j := by omega
          have hstep : ∑ k in Finset.Ico a j, blockLevel st w.length k =
              (∑ k in Finset.Ico a (j - 1), blockLevel st w.length k) +
                blockLevel st w.length (j - 1) := by
            conv_lhs => rw [← hj]
            exact Finset.sum_Ico_succ_top (by omega) _
          rw [hstep]
          ring
        rw [hcount, hsum]

/-- Block positions are nonnegative. -/
theorem segPos_nonneg (st : CEFRData) (L k : ℕ) : 0 ≤ segPos st L k := by
  rw [segPos]
  positivity

/-- Block positions are strictly monotone in the block index. -/
theorem segPos_lt_iff (st : CEFRData) (L : ℕ) {k k' : ℕ} :
    segPos st L k < segPos st L k' ↔ k < k' := by
  rw [segPos, segPos, add_lt_add_iff_left,
    mul_lt_mul_left (show (0 : ℤ) < (L : ℤ) + 2 by positivity), Nat.cast_lt]

/-- A block-aligned position at or above the segment start is a block
position. -/
theorem aligned_index (st : CEFRData) (L : ℕ) (p : ℤ)
    (hdvd : ((L : ℤ) + 2) ∣ (p - (segLo st L : ℤ)))
    (hge : (segLo st L : ℤ) ≤ p) : ∃ k : ℕ, p = segPos st L k := by
  obtain ⟨q, hq⟩ := hdvd
  have hbs : (0 : ℤ) < (L : ℤ) + 2 := by positivity
  have hq0 : 0 ≤ q := by
    by_contra hcontra
    push_neg at hcontra
    have h1 : q ≤ -1 := by omega
    have h2 : ((L : ℤ) + 2) * q ≤ ((L : ℤ) + 2) * (-1) :=
      mul_le_mul_of_nonneg_left h1 (by omega)
    omega
  refine ⟨q.toNat, ?_⟩
  rw [segPos, Int.toNat_of_nonneg hq0]
  omega

/-- C3 (amended): for a word present in the data (its blocks forming the
contiguous, category-sorted run `[a, b)` of its length segment) and a
category id absent from that run, the averaging lookup returns a rounded
mean whose scope depends on the landing block `j` of the binary search:
backward-only (`[a, j]`) when the landed category exceeds the requested
one, and the full run (`[a, b)`) when it is below it. -/
theorem claim3_amended (st : CEFRData) (w : List ℕ) (req : ℕ)
    (hv : is_word_len_valid st w.length = true)
    (hwf : SegmentWF st w.length)
    (a b : ℕ) (hab : a < b) (hb : b ≤ segCount st w.length)
    (hrun : ∀ k, a ≤ k → k < b → blockWord st w.length k = w)
    (hbefore : ∀ k, k < a → lexLtB (blockWord st w.length k) w = true)
    (hafter : ∀ k, b ≤ k → k < segCount st w.length →
      lexLtB w (blockWord st w.length k) = true)
    (habsent : ∀ k, a ≤ k → k < b → blockCat st w.length k ≠ req) :
    ∃ j, a ≤ j ∧ j < b ∧
      (get_first_word_match_pos st w).2 = .ok (segPos st w.length j) ∧
      get_int_word_level_for_pos_id st w req true =
        .ok (some (
          if req < blockCat st w.length j then
            pyRoundDiv (∑ k in Finset.Ico a (j + 1), blockLevel st w.length k)
              (j + 1 - a)
          else
            pyRoundDiv (∑ k in Finset.Ico a b, blockLevel st w.length k)
              (b - a))) := by
  have hv' : 0 < w.length ∧ w.length < st.wlp.length := by
    simpa [is_word_len_valid] using hv
  obtain ⟨hlo, hhi⟩ := wlpAt_valid st hv'.1 hv'.2
  have hbs : (0 : ℤ) < (w.length : ℤ) + 2 := by positivity
  have hseg := segHi_eq st w.length hwf
  have hlohi : segLo st w.length ≤ segHi st w.length := hwf.1
  have hlt_region : ∀ p, (segLo st w.length : ℤ) ≤ p →
      p < segPos st w.length a →
      ((w.length : ℤ) + 2) ∣ (p - (segLo st w.length : ℤ)) →
      cmpWordAt st.data w p = some .lt := by
    intro p hp1 hp2 hpd
    obtain ⟨k, rfl⟩ := aligned_index st w.length p hpd hp1
    have hk : k < a := (segPos_lt_iff st w.length).mp hp2
    have hkn : k < segCount st w.length := by omega
    rw [cmpWordAt_of_wordAt st.data w (blockWord st w.length k) _
      (blockWord_spec st w.length hwf hkn), hbefore k hk]
    simp
  have heq_region : ∀ p, segPos st w.length a ≤ p →
      p < segPos st w.length b →
      ((w.length : ℤ) + 2) ∣ (p - (segLo st w.length : ℤ)) →
      cmpWordAt st.data w p = some .eq := by
    intro p hp1 hp2 hpd
    obtain ⟨k, rfl⟩ := aligned_index st w.length p hpd
      (le_trans (by rw [segPos]; exact le_add_of_nonneg_right (by positivity))
        hp1)
    have hk2 : k < b := (segPos_lt_iff st w.length).mp hp2
    have hk1 : a ≤ k := by
      by_contra hcontra
      push_neg at hcontra
      have := (segPos_lt_iff st w.length).mpr hcontra
      omega
    rw [cmpWordAt_of_wordAt st.data w (blockWord st w.length k) _
      (blockWord_spec st w.length hwf (by omega)), hrun k hk1 hk2,
      lexLtB_irrefl]
    simp
  have hgt_region : ∀ p, segPos st w.length b ≤ p →
      p < (segHi st w.length : ℤ) →
      ((w.length : ℤ) + 2) ∣ (p - (segLo st w.length : ℤ)) →
      cmpWordAt st.data w p = some .gt := by
    intro p hp1 hp2 hpd
    obtain ⟨k, rfl⟩ := aligned_index st w.length p hpd
      (le_trans (by rw [segPos]; exact le_add_of_nonneg_right (by positivity))
        hp1)
    have hk1 : b ≤ k := by
      by_contra hcontra
      push_neg at hcontra
      have := (segPos_lt_iff st w.length).mpr hcontra
      omega
    have hkn : k < segCount st w.length := by
      by_contra hcontra
      push_neg at hcontra
      have hle : segPos st w.length (segCount st w.length) ≤
          segPos st w.length k := by
        rcases Nat.eq_or_lt_of_le hcontra with h | h
        · rw [h]
        · exact le_of_lt ((segPos_lt_iff st w.length).mpr h)
      rw [segPos] at hle
      omega
    have hcmp := cmpWordAt_of_wordAt st.data w (blockWord st w.length k) _
      (blockWord_spec st w.length hwf hkn)
    rw [hcmp, hafter k hk1 hkn,
      lexLtB_asymm (hafter k hk1 hkn)]
    simp
  have hArun : segPos st w.length a + ((w.length : ℤ) + 2) ≤
      segPos st w.length b := by
    rw [segPos, segPos]
    have : ((w.length : ℤ) + 2) * ((a : ℤ) + 1) ≤
        ((w.length : ℤ) + 2) * (b : ℤ) :=
      mul_le_mul_of_nonneg_left (by exact_mod_cast hab) (by omega)
    nlinarith
  have hBhi : segPos st w.length b ≤ (segHi st w.length : ℤ) := by
    rw [segPos, hseg]
    have : ((w.length : ℤ) + 2) * (b : ℤ) ≤
        ((w.length : ℤ) + 2) * (segCount st w.length : ℤ) :=
      mul_le_mul_of_nonneg_left (by exact_mod_cast hb) (by omega)
    omega
  have hAdvd : ((w.length : ℤ) + 2) ∣
      (segPos st w.length a - (segLo st w.length : ℤ)) := by
    rw [segPos]
    exact ⟨a, by ring⟩
  have hBdvd : ((w.length : ℤ) + 2) ∣
      (segPos st w.length b - (segLo st w.length : ℤ)) := by
    rw [segPos]
    exact ⟨b, by ring⟩
  have hloA : (segLo st w.length : ℤ) ≤ segPos st w.length a := by
    rw [segPos]
    exact le_add_of_nonneg_right (by positivity)
  have hfind := searchLoop_finds st.data w (segLo st w.length)
    (segHi st w.length) (segPos st w.length a) (segPos st w.length b)
    hlt_region heq_region hgt_region hAdvd hBdvd hloA hArun hBhi
    (segHi st w.length - segLo st w.length + 1)
    (segLo st w.length) (segHi st w.length)
    le_rfl (by simp) (by omega) (by omega)
    (by exact_mod_cast hlohi) le_rfl (by omega)
  obtain ⟨p, hpres, hpA, hpB, hpdvd⟩ := hfind
  obtain ⟨j, rfl⟩ := aligned_index st w.length p hpdvd
    (le_trans hloA hpA)
  have hja : a ≤ j := by
    by_contra hcontra
    push_neg at hcontra
    have := (segPos_lt_iff st w.length).mpr hcontra
    omega
  have hjb : j < b := (segPos_lt_iff st w.length).mp hpB
  have hjn : j < segCount st w.length := by omega
  have hsearch : (get_first_word_match_pos st w).2 =
      .ok (segPos st w.length j) := by
    rw [get_first_word_match_pos, hlo, hhi]
    exact hpres
  refine ⟨j, hja, hjb, hsearch, ?_⟩
  rw [get_int_word_level_for_pos_id, hsearch]
  dsimp only
  rw [if_neg (by have := segPos_nonneg st w.length j; omega)]
  rw [blockCat_spec st w.length hwf hjn, blockLevel_spec st w.length hwf hjn]
  dsimp only
  rw [if_neg (habsent j hja hjb), hlo, hhi]
  dsimp only
  have hfuelB : (segPos st w.length j - (segLo st w.length : ℤ)).toNat + 1 ≥
      j + 1 := by
    rw [segPos]
    have : (j : ℤ) ≤ ((w.length : ℤ) + 2) * (j : ℤ) :=
      le_mul_of_one_le_left (by positivity) (by omega)
    omega
  by_cases hcase : req < blockCat st w.length j
  · rw [if_pos hcase]
    rw [scanBackCheck_run st w req hwf a b hb hrun hbefore habsent _ j 1
      (blockLevel st w.length j) hja hjb hfuelB]
    dsimp only
    have hcount : 1 + (j - a) = j + 1 - a := by omega
    have hsum : blockLevel st w.length j +
        ∑ k in Finset.Ico a j, blockLevel st w.length k =
        ∑ k in Finset.Ico a (j + 1), blockLevel st w.length k := by
      rw [Finset.sum_Ico_succ_top hja]
      ring
    rw [hcount, hsum, if_pos rfl, if_pos hcase]
  · rw [if_neg hcase]
    have hfuelF : ((segHi st w.length : ℤ) -
        segPos st w.length j).toNat + 1 ≥ b - j := by
      rw [segPos, hseg]
      have hnj : (segCount st w.length : ℤ) - (j : ℤ) ≤
          ((w.length : ℤ) + 2) * ((segCount st w.length : ℤ) - (j : ℤ)) := by
        by_cases hle : (segCount st w.length : ℤ) - (j : ℤ) ≤ 0
        · nlinarith
        · exact le_mul_of_one_le_left (by omega) (by omega)
      have hb' : (b : ℤ) ≤ (segCount st w.length : ℤ) := by exact_mod_cast hb
      have hj' : (j : ℤ) < (b : ℤ) := by exact_mod_cast hjb
      have hexp : ((w.length : ℤ) + 2) * (segCount st w.length : ℤ) -
          ((w.length : ℤ) + 2) * (j : ℤ) =
          ((w.length : ℤ) + 2) * ((segCount st w.length : ℤ) - (j : ℤ)) := by
        ring
      omega
    rw [scanFwdCheck_run st w req hwf a b hb hrun hafter habsent _ j 1
      (blockLevel st w.length j) hja hjb hfuelF]
    dsimp only
    rw [scanBackAcc_run st w hwf a b hb hrun hbefore _ j _ _ hja hjb hfuelB]
    dsimp only
    have hcount : 1 + (b - 1 - j) + (j - a) = b - a := by omega
    have hsum : blockLevel st w.length j +
        (∑ k in Finset.Ico (j + 1) b, blockLevel st w.length k) +
        (∑ k in Finset.Ico a j, blockLevel st w.length k) =
        ∑ k in Finset.Ico a b, blockLevel st w.length k := by
      rw [← Finset.sum_Ico_consecutive _ hja (le_of_lt hjb)]
      rw [Finset.sum_eq_sum_Ico_succ_bot hjb]
      ring
    rw [hcount, hsum, if_pos rfl, if_neg hcase]

/-- Witness for the amended C3 theorem: on the five-block file
`(a,1,0)(a,2,0)(a,3,0)(a,4,250)(b,0,0)` the word `"a"` occupies the run
`[0, 4)` and category 0 is absent from it, so the averaging lookup
behaves as the amended statement describes at the landing block. -/
theorem claim3_amended_witness :
    ∃ j, 0 ≤ j ∧ j < 4 ∧
      (get_first_word_match_pos
        (⟨[0, 15], [97, 1, 0, 97, 2, 0, 97, 3, 0, 97, 4, 250, 98, 0, 0]⟩ :
          CEFRData) [97]).2 =
        Except.ok (segPos
          (⟨[0, 15], [97, 1, 0, 97, 2, 0, 97, 3, 0, 97, 4, 250, 98, 0, 0]⟩ :
            CEFRData) 1 j) ∧
      get_int_word_level_for_pos_id
        (⟨[0, 15], [97, 1, 0, 97, 2, 0, 97, 3, 0, 97, 4, 250, 98, 0, 0]⟩ :
          CEFRData) [97] 0 true =
        Except.ok (some (
          if 0 < blockCat
              (⟨[0, 15],
                [97, 1, 0, 97, 2, 0, 97, 3, 0, 97, 4, 250, 98, 0, 0]⟩ :
                CEFRData) 1 j then
            pyRoundDiv (∑ k in Finset.Ico 0 (j + 1), blockLevel
              (⟨[0, 15],
                [97, 1, 0, 97, 2, 0, 97, 3, 0, 97, 4, 250, 98, 0, 0]⟩ :
                CEFRData) 1 k) (j + 1 - 0)
          else
            pyRoundDiv (∑ k in Finset.Ico 0 4, blockLevel
              (⟨[0, 15],
                [97, 1, 0, 97, 2, 0, 97, 3, 0, 97, 4, 250, 98, 0, 0]⟩ :
                CEFRData) 1 k) (4 - 0))) :=
  claim3_amended
    ⟨[0, 15], [97, 1, 0, 97, 2, 0, 97, 3, 0, 97, 4, 250, 98, 0, 0]⟩
    [97] 0 (by decide) (by decide) 0 4 (by decide) (by decide)
    (by
      intro k h1 h2
      interval_cases k <;> rfl)
    (fun k hk => absurd hk (Nat.not_lt_zero k))
    (by
      intro k h1 h2
      have h2' : k < 5 := h2
      interval_cases k
      decide)
    (by
      intro k h1 h2
      interval_cases k <;> decide)

/-- Sorted insertion is a permutation of consing. -/
theorem pqInsert_perm (ltb : List ℕ → List ℕ → Bool) (x : List ℕ × ℕ) :
    ∀ h : List (List ℕ × ℕ), List.Perm (pqInsert ltb x h) (x :: h) := by
  intro h
  induction h with
  | nil => rw [pqInsert]
  | cons y rest ih =>
    rw [pqInsert]
    by_cases hc : ltb y.1 x.1 = true
    · rw [if_pos hc]
      exact (ih.cons y).trans (List.Perm.swap x y rest)
    · rw [if_neg hc]

/-- Sorted insertion preserves strict sortedness of the queue when the new
key is distinct from every present key. -/
theorem pqInsert_sorted (ltb : List ℕ → List ℕ → Bool)
    (htrans : ∀ a b c, ltb a b = true → ltb b c = true → ltb a c = true)
    (htricho : ∀ a b, ltb a b = true ∨ a = b ∨ ltb b a = true)
    (x : List ℕ × ℕ) :
    ∀ h : List (List ℕ × ℕ),
      h.Pairwise (fun a b => ltb a.1 b.1 = true) →
      (∀ e ∈ h, x.1 ≠ e.1) →
      (pqInsert ltb x h).Pairwise (fun a b => ltb a.1 b.1 = true) := by
  intro h
  induction h with
  | nil =>
    intro _ _
    rw [pqInsert]
    exact List.pairwise_singleton _ x
  | cons y rest ih =>
    intro hp hne
    obtain ⟨hy, hrest⟩ := List.pairwise_cons.mp hp
    rw [pqInsert]
    by_cases hc : ltb y.1 x.1 = true
    · rw [if_pos hc]
      refine List.Pairwise.cons ?_
        (ih hrest (fun e he => hne e (List.mem_cons_of_mem _ he)))
      intro e he
      have hmem : e = x ∨ e ∈ rest := by
        simpa using (pqInsert_perm ltb x rest).mem_iff.mp he
      rcases hmem with rfl | he'
      · exact hc
      · exact hy e he'
    · rw [if_neg hc]
      have hxy : ltb x.1 y.1 = true := by
        rcases htricho x.1 y.1 with h | h | h
        · exact h
        · exact absurd h (hne y (List.mem_cons_self _ _))
        · exact absurd h hc
      refine List.Pairwise.cons ?_ hp
      intro e he
      rcases List.mem_cons.mp he with rfl | he'
      · exact hxy
      · exact htrans _ _ _ hxy (hy e he')

/-- The heap fill is a permutation of its specification view. -/
theorem kmergeFill_perm (ltb : List ℕ → List ℕ → Bool) :
    ∀ (streams : List (List (List ℕ))) (idx : ℕ),
      List.Perm (kmergeFill ltb idx streams) (fillSpec idx streams) := by
  intro streams
  induction streams with
  | nil =>
    intro idx
    rw [kmergeFill, fillSpec]
  | cons s rest ih =>
    intro idx
    cases s with
    | nil =>
      rw [kmergeFill, fillSpec]
      exact ih (idx + 1)
    | cons w t =>
      rw [kmergeFill, fillSpec]
      exact (pqInsert_perm ltb (w, idx) _).trans ((ih (idx + 1)).cons (w, idx))

/-- Membership in the fill view: exactly the heads of the non-empty
generators, tagged with their shifted index. -/
theorem fillSpec_mem :
    ∀ (streams : List (List (List ℕ))) (idx : ℕ) (e : List ℕ × ℕ),
      e ∈ fillSpec idx streams ↔
        ∃ k, k < streams.length ∧
          ∃ t, streams.getD k [] = e.1 :: t ∧ e.2 = idx + k := by
  intro streams
  induction streams with
  | nil =>
    intro idx e
    rw [fillSpec]
    simp
  | cons s rest ih =>
    intro idx e
    cases s with
    | nil =>
      rw [fillSpec, ih (idx + 1)]
      constructor
      · rintro ⟨k, hk, t, hkt, hke⟩
        refine ⟨k + 1, by simpa using hk, t, ?_, by omega⟩
        simpa [List.getD_cons_succ] using hkt
      · rintro ⟨k, hk, t, hkt, hke⟩
        cases k with
        | zero =>
          rw [List.getD_cons_zero] at hkt
          cases hkt
        | succ m =>
          refine ⟨m, by simpa using hk, t, ?_, by omega⟩
          simpa [List.getD_cons_succ] using hkt
    | cons w tw =>
      rw [fillSpec]
      simp only [List.mem_cons]
      rw [ih (idx + 1)]
      constructor
      · rintro (rfl | ⟨k, hk, t, hkt, hke⟩)
        · exact ⟨0, by simp, tw, by simp [List.getD_cons_zero], by simp⟩
        · refine ⟨k + 1, by simpa using hk, t, ?_, by omega⟩
          simpa [List.getD_cons_succ] using hkt
      · rintro ⟨k, hk, t, hkt, hke⟩
        cases k with
        | zero =>
          left
          rw [List.getD_cons_zero] at hkt
          obtain ⟨e1, e2⟩ := e
          simp only at hkt hke
          cases hkt
          simp only [Nat.add_zero] at hke
          rw [hke]
        | succ m =>
          right
          refine ⟨m, by simpa using hk, t, ?_, by omega⟩
          simpa [List.getD_cons_succ] using hkt

/-- Every index in the fill view is at least the starting index. -/
theorem fillSpec_idx_lb (streams : List (List (List ℕ))) (idx : ℕ)
    (e : List ℕ × ℕ) (he : e ∈ fillSpec idx streams) : idx ≤ e.2 := by
  rw [fillSpec_mem] at he
  obtain ⟨k, -, -, -, hke⟩ := he
  omega

/-- The fill view carries pairwise distinct generator indices. -/
theorem fillSpec_nodup :
    ∀ (streams : List (List (List ℕ))) (idx : ℕ),
      ((fillSpec idx streams).map Prod.snd).Nodup := by
  intro streams
  induction streams with
  | nil =>
    intro idx
    rw [fillSpec]
    exact List.nodup_nil
  | cons s rest ih =>
    intro idx
    cases s with
    | nil =>
      rw [fillSpec]
      exact ih (idx + 1)
    | cons w t =>
      rw [fillSpec]
      rw [List.map_cons, List.nodup_cons]
      refine ⟨?_, ih (idx + 1)⟩
      intro hmem
      obtain ⟨e, he, hei⟩ := List.mem_map.mp hmem
      have := fillSpec_idx_lb rest (idx + 1) e he
      omega

/-- The initial heap fill is strictly sorted whenever distinct generators
never share a word. -/
theorem kmergeFill_sorted (ltb : List ℕ → List ℕ → Bool)
    (htrans : ∀ a b c, ltb a b = true → ltb b c = true → ltb a c = true)
    (htricho : ∀ a b, ltb a b = true ∨ a = b ∨ ltb b a = true) :
    ∀ (streams : List (List (List ℕ))) (idx : ℕ),
      (∀ k l, k ≠ l → ∀ x ∈ streams.getD k [], ∀ y ∈ streams.getD l [],
        x ≠ y) →
      (kmergeFill ltb idx streams).Pairwise
        (fun a b => ltb a.1 b.1 = true) := by
  intro streams
  induction streams with
  | nil =>
    intro idx _
    rw [kmergeFill]
    exact List.Pairwise.nil
  | cons s rest ih =>
    intro idx hdisj
    have hdisj' : ∀ k l, k ≠ l → ∀ x ∈ rest.getD k [],
        ∀ y ∈ rest.getD l [], x ≠ y := by
      intro k l hkl x hx y hy
      exact hdisj (k + 1) (l + 1) (by omega) x
        (by simpa [List.getD_cons_succ] using hx) y
        (by simpa [List.getD_cons_succ] using hy)
    cases s with
    | nil =>
      rw [kmergeFill]
      exact ih (idx + 1) hdisj'
    | cons w t =>
      rw [kmergeFill]
      apply pqInsert_sorted ltb htrans htricho (w, idx) _
        (ih (idx + 1) hdisj')
      intro e he
      have he' : e ∈ fillSpec (idx + 1) rest :=
        (kmergeFill_perm ltb rest (idx + 1)).mem_iff.mp he
      rw [fillSpec_mem] at he'
      obtain ⟨k, hk, tl, hkt, -⟩ := he'
      refine hdisj 0 (k + 1) (by omega) w (by simp [List.getD_cons_zero])
        e.1 ?_
      rw [List.getD_cons_succ, hkt]
      exact List.mem_cons_self _ _

/-- Reading a list updated at an in-range index. -/
theorem getD_set_list (streams : List (List (List ℕ))) (gi : ℕ)
    (xs : List (List ℕ)) (hgi : gi < streams.length) :
    ∀ j, (streams.set gi xs).getD j [] =
      if j = gi then xs else streams.getD j [] := by
  intro j
  by_cases hj : j < streams.length
  · rw [List.getD_eq_getElem _ _ (by simpa using hj),
      List.getElem_set (by simpa using hj)]
    by_cases hjg : j = gi
    · rw [if_pos (by omega), if_pos hjg]
    · rw [if_neg (by omega), if_neg hjg, List.getD_eq_getElem _ _ hj]
  · have hj' : streams.length ≤ j := by omega
    rw [List.getD_eq_default _ _ (by simpa using hj'),
      if_neg (by omega), List.getD_eq_default _ _ hj']

/-- Reading the per-generator remainders after dropping the heads. -/
theorem getD_map_drop (streams : List (List (List ℕ))) (i : ℕ) :
    (streams.map (List.drop 1)).getD i [] = (streams.getD i []).drop 1 := by
  by_cases hi : i < streams.length
  · rw [List.getD_eq_getElem _ _ (by simpa using hi), List.getElem_map,
      List.getD_eq_getElem _ _ hi]
  · rw [List.getD_eq_default _ _ (by simpa using (by omega : streams.length ≤ i)),
      List.getD_eq_default _ _ (by omega)]
    rfl

/-- Updating one generator changes the total length accordingly. -/
theorem sum_map_length_set :
    ∀ (streams : List (List (List ℕ))) (gi : ℕ) (xs : List (List ℕ)),
      gi < streams.length →
      ((streams.set gi xs).map List.length).sum +
        (streams.getD gi []).length =
      (streams.map List.length).sum + xs.length := by
  intro streams
  induction streams with
  | nil =>
    intro gi xs h
    simp at h
  | cons s rest ih =>
    intro gi xs h
    cases gi with
    | zero =>
      simp only [List.set, List.map_cons, List.sum_cons, List.getD_cons_zero]
      omega
    | succ m =>
      simp only [List.set, List.map_cons, List.sum_cons, List.getD_cons_succ]
      have := ih m xs (by simpa using h)
      omega

/-- Popping the head of one generator permutes the flattened pending words. -/
theorem flatten_set_perm :
    ∀ (streams : List (List (List ℕ))) (gi : ℕ) (x : List ℕ)
      (xs : List (List ℕ)), gi < streams.length →
      streams.getD gi [] = x :: xs →
      List.Perm streams.flatten (x :: (streams.set gi xs).flatten) := by
  intro streams
  induction streams with
  | nil =>
    intro gi x xs h
    simp at h
  | cons s rest ih =>
    intro gi x xs hgi hs
    cases gi with
    | zero =>
      rw [List.getD_cons_zero] at hs
      subst hs
      simp only [List.set, List.flatten_cons, List.cons_append]
      exact List.Perm.refl _
    | succ m =>
      rw [List.getD_cons_succ] at hs
      simp only [List.set, List.flatten_cons]
      exact ((ih m x xs (by simpa using hgi) hs).append_left s).trans
        List.perm_middle

/-- A generator list with only exhausted generators has no pending words. -/
theorem flatten_nil_of_all_nil :
    ∀ streams : List (List (List ℕ)),
      (∀ i, streams.getD i [] = []) → streams.flatten = [] := by
  intro streams
  induction streams with
  | nil =>
    intro _
    rfl
  | cons s rest ih =>
    intro h
    have h0 : s = [] := by
      have := h 0
      simpa [List.getD_cons_zero] using this
    have ht := ih (fun i => by
      have := h (i + 1)
      simpa [List.getD_cons_succ] using this)
    rw [List.flatten_cons, h0, ht]
    rfl

/-- Every pending word lies in some generator. -/
theorem mem_flatten_getD (streams : List (List (List ℕ))) (y : List ℕ)
    (hy : y ∈ streams.flatten) :
    ∃ j, j < streams.length ∧ y ∈ streams.getD j [] := by
  obtain ⟨l, hl, hyl⟩ := List.mem_flatten.mp hy
  obtain ⟨i, hi, hil⟩ := List.getElem_of_mem hl
  exact ⟨i, hi, by rw [List.getD_eq_getElem _ _ hi, hil]; exact hyl⟩

/-- The initial fill keys together with the dropped remainders are a
permutation of all pending words. -/
theorem fill_flatten_perm :
    ∀ (streams : List (List (List ℕ))) (idx : ℕ),
      List.Perm
        ((fillSpec idx streams).map Prod.fst ++
          (streams.map (List.drop 1)).flatten)
        streams.flatten := by
  intro streams
  induction streams with
  | nil =>
    intro idx
    rw [fillSpec]
    exact List.Perm.refl _
  | cons s rest ih =>
    intro idx
    cases s with
    | nil =>
      rw [fillSpec]
      simp only [List.map_cons, List.flatten_cons, List.drop_nil,
        List.nil_append]
      exact ih (idx + 1)
    | cons w t =>
      rw [fillSpec]
      simp only [List.map_cons, List.flatten_cons, List.cons_append,
        List.drop_succ_cons, List.drop_zero]
      apply List.Perm.cons
      have h1 : List.Perm
          ((fillSpec (idx + 1) rest).map Prod.fst ++
            (t ++ (rest.map (List.drop 1)).flatten))
          (t ++ ((fillSpec (idx + 1) rest).map Prod.fst ++
            (rest.map (List.drop 1)).flatten)) := by
        rw [← List.append_assoc, ← List.append_assoc]
        exact List.perm_append_comm.append_right _
      exact h1.trans ((ih (idx + 1)).append_left t)

/-- The fill size plus the remaining generator lengths is the total number
of pending words. -/
theorem fill_fuel :
    ∀ (streams : List (List (List ℕ))) (idx : ℕ),
      (fillSpec idx streams).length +
        ((streams.map (List.drop 1)).map List.length).sum =
      (streams.map List.length).sum := by
  intro streams
  induction streams with
  | nil =>
    intro idx
    rfl
  | cons s rest ih =>
    intro idx
    cases s with
    | nil =>
      rw [fillSpec]
      simp only [List.map_cons, List.sum_cons, List.drop_nil,
        List.length_nil]
      have := ih (idx + 1)
      omega
    | cons w t =>
      rw [fillSpec]
      simp only [List.map_cons, List.sum_cons, List.length_cons,
        List.drop_succ_cons, List.drop_zero]
      have := ih (idx + 1)
      omega

/-- Main-loop invariant of the `heapq` merge in `_yield_all_data`: from a
strictly sorted heap of pending generator heads, with every pending word
distinct and every heap key strictly below its generator's remainder, the
loop emits a permutation of all pending words in strictly ascending
comparator order. -/
theorem kmergeGo_run (ltb : List ℕ → List ℕ → Bool)
    (htrans : ∀ a b c, ltb a b = true → ltb b c = true → ltb a c = true)
    (htricho : ∀ a b, ltb a b = true ∨ a = b ∨ ltb b a = true) :
    ∀ (fuel : ℕ) (streams : List (List (List ℕ)))
      (heap : List (List ℕ × ℕ)),
      heap.Pairwise (fun a b => ltb a.1 b.1 = true) →
      (∀ e ∈ heap, e.2 < streams.length) →
      (heap.map Prod.snd).Nodup →
      (∀ e ∈ heap, ∀ x ∈ streams.getD e.2 [], ltb e.1 x = true) →
      (∀ i, i < streams.length → i ∉ heap.map Prod.snd →
        streams.getD i [] = []) →
      (∀ i, (streams.getD i []).Pairwise (fun a b => ltb a b = true)) →
      (∀ e ∈ heap, ∀ j, j ≠ e.2 → ∀ x ∈ streams.getD j [], x ≠ e.1) →
      (∀ i j, i ≠ j → ∀ x ∈ streams.getD i [], ∀ y ∈ streams.getD j [],
        x ≠ y) →
      heap.length + (streams.map List.length).sum ≤ fuel →
      List.Perm (kmergeGo ltb fuel streams heap)
        (heap.map Prod.fst ++ streams.flatten) ∧
      (kmergeGo ltb fuel streams heap).Pairwise
        (fun a b => ltb a b = true) := by
  intro fuel
  induction fuel with
  | zero =>
    intro streams heap h1 h2 h3 h4 h5 h6 h7 h8 hfuel
    cases heap with
    | nil =>
      have hflat : streams.flatten = [] :=
        flatten_nil_of_all_nil streams (fun i => by
          by_cases hi : i < streams.length
          · exact h5 i hi (by simp)
          · exact List.getD_eq_default _ _ (by omega))
      constructor
      · rw [kmergeGo, List.map_nil, List.nil_append, hflat]
      · rw [kmergeGo]
        exact List.Pairwise.nil
    | cons e heapRest =>
      exfalso
      simp only [List.length_cons] at hfuel
      omega
  | succ n ih =>
    intro streams heap h1 h2 h3 h4 h5 h6 h7 h8 hfuel
    cases heap with
    | nil =>
      have hflat : streams.flatten = [] :=
        flatten_nil_of_all_nil streams (fun i => by
          by_cases hi : i < streams.length
          · exact h5 i hi (by simp)
          · exact List.getD_eq_default _ _ (by omega))
      constructor
      · rw [kmergeGo, List.map_nil, List.nil_append, hflat]
      · rw [kmergeGo]
        exact List.Pairwise.nil
    | cons e heapRest =>
      obtain ⟨w, gi⟩ := e
      have hmem_w : (w, gi) ∈ (w, gi) :: heapRest := List.mem_cons_self _ _
      have hgi : gi < streams.length := h2 _ hmem_w
      have hsome : streams[gi]? = some (streams.getD gi []) := by
        rw [List.getElem?_eq_getElem hgi, List.getD_eq_getElem streams [] hgi]
      have h1' := List.pairwise_cons.mp h1
      have h3' : gi ∉ heapRest.map Prod.snd ∧
          (heapRest.map Prod.snd).Nodup := by
        simpa using h3
      cases hs : streams.getD gi [] with
      | nil =>
        rw [kmergeGo, hsome, hs]
        dsimp only
        have H2' : ∀ e ∈ heapRest, e.2 < streams.length :=
          fun e he => h2 e (List.mem_cons_of_mem _ he)
        have H4' : ∀ e ∈ heapRest, ∀ x ∈ streams.getD e.2 [],
            ltb e.1 x = true :=
          fun e he => h4 e (List.mem_cons_of_mem _ he)
        have H5' : ∀ i, i < streams.length → i ∉ heapRest.map Prod.snd →
            streams.getD i [] = [] := by
          intro i hi hnot
          by_cases higi : i = gi
          · rw [higi]
            exact hs
          · apply h5 i hi
            simp only [List.map_cons, List.mem_cons]
            push_neg
            exact ⟨higi, hnot⟩
        have H7' : ∀ e ∈ heapRest, ∀ j, j ≠ e.2 → ∀ x ∈ streams.getD j [],
            x ≠ e.1 :=
          fun e he => h7 e (List.mem_cons_of_mem _ he)
        have hfuel' : heapRest.length + (streams.map List.length).sum ≤ n := by
          simp only [List.length_cons] at hfuel
          omega
        obtain ⟨ihp, ihs⟩ := ih streams heapRest h1'.2 H2' h3'.2 H4' H5'
          h6 H7' h8 hfuel'
        constructor
        · simp only [List.map_cons, List.cons_append]
          exact ihp.cons w
        · refine List.Pairwise.cons ?_ ihs
          intro y hy
          have hy' := ihp.mem_iff.mp hy
          rcases List.mem_append.mp hy' with hyk | hyf
          · obtain ⟨e, he, rfl⟩ := List.mem_map.mp hyk
            exact h1'.1 e he
          · obtain ⟨j, hj, hyj⟩ := mem_flatten_getD streams y hyf
            by_cases hjg : j = gi
            · rw [hjg, hs] at hyj
              cases hyj
            · have hjmem : j ∈ heapRest.map Prod.snd := by
                by_contra hnot
                rw [H5' j hj hnot] at hyj
                cases hyj
              obtain ⟨e, he, hej⟩ := List.mem_map.mp hjmem
              refine htrans _ _ _ (h1'.1 e he)
                (h4 e (List.mem_cons_of_mem _ he) y ?_)
              rw [hej]
              exact hyj
      | cons x xs =>
        rw [kmergeGo, hsome, hs]
        dsimp only
        have hgd := getD_set_list streams gi xs hgi
        have hperm2 : List.Perm (pqInsert ltb (x, gi) heapRest)
            ((x, gi) :: heapRest) := pqInsert_perm ltb (x, gi) heapRest
        have hxmem : x ∈ streams.getD gi [] := by
          rw [hs]
          exact List.mem_cons_self _ _
        have hkeysne : ∀ e ∈ heapRest, x ≠ e.1 := by
          intro e he
          have hegi : e.2 ≠ gi := by
            intro hcontra
            exact h3'.1 (by
              rw [← hcontra]
              exact List.mem_map.mpr ⟨e, he, rfl⟩)
          exact h7 e (List.mem_cons_of_mem _ he) gi (Ne.symm hegi) x hxmem
        have hsub : ∀ i y, y ∈ (streams.set gi xs).getD i [] →
            y ∈ streams.getD i [] := by
          intro i y hy
          rw [hgd i] at hy
          by_cases higi : i = gi
          · rw [if_pos higi] at hy
            rw [higi, hs]
            exact List.mem_cons_of_mem _ hy
          · rw [if_neg higi] at hy
            exact hy
        have H1' : (pqInsert ltb (x, gi) heapRest).Pairwise
            (fun a b => ltb a.1 b.1 = true) :=
          pqInsert_sorted ltb htrans htricho (x, gi) heapRest h1'.2 hkeysne
        have H2'' : ∀ e ∈ pqInsert ltb (x, gi) heapRest,
            e.2 < (streams.set gi xs).length := by
          intro e he
          rw [List.length_set]
          have hmem2 : e = (x, gi) ∨ e ∈ heapRest := by
            simpa using hperm2.mem_iff.mp he
          rcases hmem2 with rfl | he'
          · exact hgi
          · exact h2 e (List.mem_cons_of_mem _ he')
        have H3'' : ((pqInsert ltb (x, gi) heapRest).map Prod.snd).Nodup := by
          have hp : List.Perm ((pqInsert ltb (x, gi) heapRest).map Prod.snd)
              (gi :: heapRest.map Prod.snd) := by
            simpa using hperm2.map Prod.snd
          rw [hp.nodup_iff]
          simpa using h3
        have H4'' : ∀ e ∈ pqInsert ltb (x, gi) heapRest,
            ∀ y ∈ (streams.set gi xs).getD e.2 [], ltb e.1 y = true := by
          intro e he y hy
          have hmem2 : e = (x, gi) ∨ e ∈ heapRest := by
            simpa using hperm2.mem_iff.mp he
          rcases hmem2 with rfl | he'
          · have hy' : y ∈ xs := by
              rw [hgd] at hy
              simpa using hy
            have hpw := h6 gi
            rw [hs] at hpw
            exact (List.pairwise_cons.mp hpw).1 y hy'
          · have hegi : e.2 ≠ gi := by
              intro hcontra
              exact h3'.1 (by
                rw [← hcontra]
                exact List.mem_map.mpr ⟨e, he', rfl⟩)
            rw [hgd, if_neg hegi] at hy
            exact h4 e (List.mem_cons_of_mem _ he') y hy
        have H5'' : ∀ i, i < (streams.set gi xs).length →
            i ∉ (pqInsert ltb (x, gi) heapRest).map Prod.snd →
            (streams.set gi xs).getD i [] = [] := by
          intro i hi hnot
          have hi' : i < streams.length := by
            rw [List.length_set] at hi
            exact hi
          have higi : i ≠ gi := by
            intro hcontra
            apply hnot
            apply List.mem_map.mpr
            refine ⟨(x, gi), ?_, hcontra.symm⟩
            exact hperm2.mem_iff.mpr (List.mem_cons_self _ _)
          rw [hgd, if_neg higi]
          apply h5 i hi'
          simp only [List.map_cons, List.mem_cons]
          push_neg
          refine ⟨higi, ?_⟩
          intro hmem
          apply hnot
          obtain ⟨e, he, hei⟩ := List.mem_map.mp hmem
          exact List.mem_map.mpr
            ⟨e, hperm2.mem_iff.mpr (List.mem_cons_of_mem _ he), hei⟩
        have H6'' : ∀ i, ((streams.set gi xs).getD i []).Pairwise
            (fun a b => ltb a b = true) := by
          intro i
          rw [hgd]
          by_cases higi : i = gi
          · rw [if_pos higi]
            have hpw := h6 gi
            rw [hs] at hpw
            exact (List.pairwise_cons.mp hpw).2
          · rw [if_neg higi]
            exact h6 i
        have H7'' : ∀ e ∈ pqInsert ltb (x, gi) heapRest,
            ∀ j, j ≠ e.2 → ∀ y ∈ (streams.set gi xs).getD j [],
            y ≠ e.1 := by
          intro e he j hj y hy
          have hmem2 : e = (x, gi) ∨ e ∈ heapRest := by
            simpa using hperm2.mem_iff.mp he
          rcases hmem2 with rfl | he'
          · have hjgi : j ≠ gi := hj
            rw [hgd, if_neg hjgi] at hy
            exact h8 j gi hjgi y hy x hxmem
          · exact h7 e (List.mem_cons_of_mem _ he') j hj y (hsub j y hy)
        have H8'' : ∀ i j, i ≠ j → ∀ y ∈ (streams.set gi xs).getD i [],
            ∀ z ∈ (streams.set gi xs).getD j [], y ≠ z := by
          intro i j hij y hy z hz
          exact h8 i j hij y (hsub i y hy) z (hsub j z hz)
        have hfuel'' : (pqInsert ltb (x, gi) heapRest).length +
            ((streams.set gi xs).map List.length).sum ≤ n := by
          have hlen2 : (pqInsert ltb (x, gi) heapRest).length =
              heapRest.length + 1 := by
            simpa using hperm2.length_eq
          have hsum := sum_map_length_set streams gi xs hgi
          rw [hs] at hsum
          simp only [List.length_cons] at hsum hfuel ⊢
          omega
        obtain ⟨ihp, ihs⟩ := ih (streams.set gi xs)
          (pqInsert ltb (x, gi) heapRest) H1' H2'' H3'' H4'' H5'' H6''
          H7'' H8'' hfuel''
        have hflat : List.Perm streams.flatten
            (x :: (streams.set gi xs).flatten) :=
          flatten_set_perm streams gi x xs hgi hs
        have hkeys2 : List.Perm
            ((pqInsert ltb (x, gi) heapRest).map Prod.fst)
            (x :: heapRest.map Prod.fst) := by
          simpa using hperm2.map Prod.fst
        constructor
        · simp only [List.map_cons, List.cons_append]
          apply List.Perm.cons w
          have hleft : List.Perm
              (kmergeGo ltb n (streams.set gi xs)
                (pqInsert ltb (x, gi) heapRest))
              (x :: (heapRest.map Prod.fst ++
                (streams.set gi xs).flatten)) :=
            ihp.trans (hkeys2.append_right _)
          have hright : List.Perm
              (heapRest.map Prod.fst ++ streams.flatten)
              (x :: (heapRest.map Prod.fst ++
                (streams.set gi xs).flatten)) :=
            (hflat.append_left _).trans List.perm_middle
          exact hleft.trans hright.symm
        · refine List.Pairwise.cons ?_ ihs
          intro y hy
          have hy' := ihp.mem_iff.mp hy
          rcases List.mem_append.mp hy' with hyk | hyf
          · have hmem3 : y = x ∨ y ∈ heapRest.map Prod.fst := by
              simpa using hkeys2.mem_iff.mp hyk
            rcases hmem3 with rfl | hyk'
            · exact h4 (w, gi) hmem_w y hxmem
            · obtain ⟨e, he, rfl⟩ := List.mem_map.mp hyk'
              exact h1'.1 e he
          · obtain ⟨j, hj, hyj⟩ := mem_flatten_getD (streams.set gi xs) y hyf
            have hj' : j < streams.length := by
              rw [List.length_set] at hj
              exact hj
            rw [hgd] at hyj
            by_cases hjgi : j = gi
            · rw [if_pos hjgi] at hyj
              have hyin : y ∈ streams.getD gi [] := by
                rw [hs]
                exact List.mem_cons_of_mem _ hyj
              exact h4 (w, gi) hmem_w y hyin
            · rw [if_neg hjgi] at hyj
              have hjmem : j ∈ heapRest.map Prod.snd := by
                by_contra hnot
                have hempty : streams.getD j [] = [] := by
                  apply h5 j hj'
                  simp only [List.map_cons, List.mem_cons]
                  push_neg
                  exact ⟨hjgi, hnot⟩
                rw [hempty] at hyj
                cases hyj
              obtain ⟨e, he, hej⟩ := List.mem_map.mp hjmem
              refine htrans _ _ _ (h1'.1 e he)
                (h4 e (List.mem_cons_of_mem _ he) y ?_)
              rw [hej]
              exact hyj

/-- The k-way merge of internally sorted, pairwise word-disjoint generators
emits a permutation of all their words in strictly ascending comparator
order. -/
theorem kmerge_run (ltb : List ℕ → List ℕ → Bool)
    (htrans : ∀ a b c, ltb a b = true → ltb b c = true → ltb a c = true)
    (htricho : ∀ a b, ltb a b = true ∨ a = b ∨ ltb b a = true)
    (streams : List (List (List ℕ)))
    (hsorted : ∀ i, (streams.getD i []).Pairwise
      (fun a b => ltb a b = true))
    (hdisj : ∀ i j, i ≠ j → ∀ x ∈ streams.getD i [],
      ∀ y ∈ streams.getD j [], x ≠ y) :
    List.Perm (kmerge ltb streams) streams.flatten ∧
    (kmerge ltb streams).Pairwise (fun a b => ltb a b = true) := by
  rw [kmerge]
  have hperm0 : List.Perm (kmergeFill ltb 0 streams) (fillSpec 0 streams) :=
    kmergeFill_perm ltb streams 0
  have hmemFill : ∀ e ∈ kmergeFill ltb 0 streams,
      ∃ k, k < streams.length ∧
        ∃ t, streams.getD k [] = e.1 :: t ∧ e.2 = k := by
    intro e he
    have := (fillSpec_mem streams 0 e).mp (hperm0.mem_iff.mp he)
    obtain ⟨k, hk, t, hkt, hke⟩ := this
    exact ⟨k, hk, t, hkt, by omega⟩
  have H1 : (kmergeFill ltb 0 streams).Pairwise
      (fun a b => ltb a.1 b.1 = true) :=
    kmergeFill_sorted ltb htrans htricho streams 0 hdisj
  have H2 : ∀ e ∈ kmergeFill ltb 0 streams,
      e.2 < (streams.map (List.drop 1)).length := by
    intro e he
    obtain ⟨k, hk, -, -, hke⟩ := hmemFill e he
    rw [List.length_map]
    omega
  have H3 : ((kmergeFill ltb 0 streams).map Prod.snd).Nodup := by
    rw [(hperm0.map Prod.snd).nodup_iff]
    exact fillSpec_nodup streams 0
  have H4 : ∀ e ∈ kmergeFill ltb 0 streams,
      ∀ y ∈ (streams.map (List.drop 1)).getD e.2 [], ltb e.1 y = true := by
    intro e he y hy
    obtain ⟨k, hk, t, hkt, hke⟩ := hmemFill e he
    rw [getD_map_drop, hke, hkt] at hy
    simp only [List.drop_succ_cons, List.drop_zero] at hy
    have hpw := hsorted k
    rw [hkt] at hpw
    exact (List.pairwise_cons.mp hpw).1 y hy
  have H5 : ∀ i, i < (streams.map (List.drop 1)).length →
      i ∉ (kmergeFill ltb 0 streams).map Prod.snd →
      (streams.map (List.drop 1)).getD i [] = [] := by
    intro i hi hnot
    rw [List.length_map] at hi
    rw [getD_map_drop]
    cases hc : streams.getD i [] with
    | nil => rfl
    | cons c cs =>
      exfalso
      apply hnot
      apply List.mem_map.mpr
      refine ⟨(c, i), ?_, rfl⟩
      apply hperm0.mem_iff.mpr
      exact (fillSpec_mem streams 0 (c, i)).mpr ⟨i, hi, cs, hc, by omega⟩
  have H6 : ∀ i, ((streams.map (List.drop 1)).getD i []).Pairwise
      (fun a b => ltb a b = true) := by
    intro i
    rw [getD_map_drop]
    exact (hsorted i).sublist (List.drop_sublist 1 _)
  have H7 : ∀ e ∈ kmergeFill ltb 0 streams,
      ∀ j, j ≠ e.2 → ∀ y ∈ (streams.map (List.drop 1)).getD j [],
      y ≠ e.1 := by
    intro e he j hj y hy
    obtain ⟨k, hk, t, hkt, hke⟩ := hmemFill e he
    rw [getD_map_drop] at hy
    have hy' : y ∈ streams.getD j [] :=
      (List.drop_sublist 1 _).subset hy
    have hek : e.1 ∈ streams.getD e.2 [] := by
      rw [hke, hkt]
      exact List.mem_cons_self _ _
    exact hdisj j e.2 hj y hy' e.1 hek
  have H8 : ∀ i j, i ≠ j → ∀ y ∈ (streams.map (List.drop 1)).getD i [],
      ∀ z ∈ (streams.map (List.drop 1)).getD j [], y ≠ z := by
    intro i j hij y hy z hz
    rw [getD_map_drop] at hy hz
    exact hdisj i j hij y ((List.drop_sublist 1 _).subset hy) z
      ((List.drop_sublist 1 _).subset hz)
  have hfuel : (kmergeFill ltb 0 streams).length +
      ((streams.map (List.drop 1)).map List.length).sum ≤
      (streams.map List.length).sum + 1 := by
    have h1 := fill_fuel streams 0
    have h2 : (kmergeFill ltb 0 streams).length =
        (fillSpec 0 streams).length := hperm0.length_eq
    omega
  obtain ⟨hp, hs⟩ := kmergeGo_run ltb htrans htricho
    ((streams.map List.length).sum + 1) (streams.map (List.drop 1))
    (kmergeFill ltb 0 streams) H1 H2 H3 H4 H5 H6 H7 H8 hfuel
  refine ⟨hp.trans ?_, hs⟩
  exact ((hperm0.map Prod.fst).append_right _).trans
    (fill_flatten_perm streams 0)

/-- Materializing the per-length generators over a list of valid lengths:
forward mode yields each length's dedup, reverse mode its reverse. -/
theorem gatherStreams_spec (st : CEFRData) (hwf : allSegsWF st) :
    ∀ ls : List ℕ, (∀ L ∈ ls, is_word_len_valid st L = true) →
      gatherStreams st false ls =
        .ok (ls.map (fun L => dedupCons none (wordsOfSeg st L))) ∧
      gatherStreams st true ls =
        .ok (ls.map (fun L => (dedupCons none (wordsOfSeg st L)).reverse)) := by
  intro ls
  induction ls with
  | nil =>
    intro _
    exact ⟨rfl, rfl⟩
  | cons L rest ih =>
    intro hall
    have hL := hall L (List.mem_cons_self _ _)
    have hL' : 0 < L ∧ L < st.wlp.length := by
      simpa [is_word_len_valid] using hL
    have hLwf : SegmentWF st L := hwf L hL'.1 hL'.2
    have hy := ywl_spec st L hL hLwf
    obtain ⟨ih1, ih2⟩ := ih (fun L' h => hall L' (List.mem_cons_of_mem _ h))
    constructor
    · rw [gatherStreams, hy.1]
      dsimp only
      rw [ih1]
      dsimp only
      rw [List.map_cons]
    · rw [gatherStreams, hy.2]
      dsimp only
      rw [ih2]
      dsimp only
      rw [List.map_cons]

/-- Summing the per-length counts over a list of valid lengths. -/
theorem sumCounts_spec (st : CEFRData) (hwf : allSegsWF st) :
    ∀ ls : List ℕ, (∀ L ∈ ls, is_word_len_valid st L = true) →
      sumCounts st ls =
        .ok ((ls.map
          (fun L => (dedupCons none (wordsOfSeg st L)).length)).sum) := by
  intro ls
  induction ls with
  | nil =>
    intro _
    rfl
  | cons L rest ih =>
    intro hall
    have hL := hall L (List.mem_cons_self _ _)
    have hL' : 0 < L ∧ L < st.wlp.length := by
      simpa [is_word_len_valid] using hL
    have hLwf : SegmentWF st L := hwf L hL'.1 hL'.2
    rw [sumCounts, gwc_spec st L hL hLwf]
    dsimp only
    rw [ih (fun L' h => hall L' (List.mem_cons_of_mem _ h))]
    dsimp only
    rw [List.map_cons, List.sum_cons]

/-- Every block word of a well-formed segment has the segment's length. -/
theorem blockWord_length (st : CEFRData) (L : ℕ) (hwf : SegmentWF st L)
    (k : ℕ) (hk : k < segCount st L) : (blockWord st L k).length = L := by
  have hsome := hwf.2.2.2.1 k hk
  obtain ⟨v, hv⟩ := Option.isSome_iff_exists.mp hsome
  rw [blockWord, hv, Option.getD_some]
  exact wordAt_length st.data L _ v hv

/-- Every word yielded for length `L` has length `L`. -/
theorem dedup_word_length (st : CEFRData) (L : ℕ) (hwf : SegmentWF st L)
    (x : List ℕ) (hx : x ∈ dedupCons none (wordsOfSeg st L)) :
    x.length = L := by
  have hx' : x ∈ wordsOfSeg st L := dedupCons_subset _ _ _ hx
  rw [wordsOfSeg] at hx'
  obtain ⟨k, hk, rfl⟩ := List.mem_map.mp hx'
  exact blockWord_length st L hwf k (List.mem_range.mp hk)

/-- Positional read of an arithmetic range. -/
theorem range'_getD : ∀ (n s i : ℕ), i < n →
    (List.range' s n).getD i 0 = s + i := by
  intro n
  induction n with
  | zero =>
    intro s i h
    omega
  | succ m ih =>
    intro s i h
    rw [List.range'_succ]
    cases i with
    | zero =>
      rw [List.getD_cons_zero]
      omega
    | succ k =>
      rw [List.getD_cons_succ, ih (s + 1) k (by omega)]
      omega

/-- Positional read of a mapped list. -/
theorem getD_map_lt {α β : Type} (f : α → β) :
    ∀ (l : List α) (i : ℕ) (d : α) (e : β), i < l.length →
      (l.map f).getD i e = f (l.getD i d) := by
  intro l
  induction l with
  | nil =>
    intro i d e h
    simp at h
  | cons a t ih =>
    intro i d e h
    cases i with
    | zero =>
      rw [List.map_cons, List.getD_cons_zero, List.getD_cons_zero]
    | succ m =>
      rw [List.map_cons, List.getD_cons_succ, List.getD_cons_succ]
      exact ih m d e (by simpa using h)

/-- C6: assuming every segment is well formed and sorted ascending by
(word bytes, category id), `yield_words(reverse_order=False,
word_lenght_sort=False)` yields a strictly increasing lexicographic word
sequence spanning every per-length yield, its total count equals
`get_total_words()`, and `reverse_order=True` yields a strictly decreasing
sequence of the same count. -/
theorem claim6_global_merge (st : CEFRData) (hwf : allSegsWF st) :
    ∃ out rout : List (List ℕ),
      yield_words st false false = Except.ok out ∧
      List.Pairwise lexLt out ∧
      get_total_words st = Except.ok out.length ∧
      (∀ L F w, yield_words_with_length st L false = Except.ok F →
        w ∈ F → w ∈ out) ∧
      yield_words st true false = Except.ok rout ∧
      List.Pairwise (fun a b => lexLt b a) rout ∧
      rout.length = out.length := by
  have hvalid : ∀ L ∈ List.range' 1 (get_max_word_len st),
      is_word_len_valid st L = true := by
    intro L hL
    rw [List.mem_range'_1] at hL
    rw [is_word_len_valid]
    simp only [Bool.and_eq_true, decide_eq_true_eq]
    rw [get_max_word_len] at hL
    omega
  obtain ⟨hgf, hgr⟩ := gatherStreams_spec st hwf
    (List.range' 1 (get_max_word_len st)) hvalid
  set n := get_max_word_len st with hn
  set ls := List.range' 1 n with hls
  set S := ls.map (fun L => dedupCons none (wordsOfSeg st L)) with hS
  set R := ls.map (fun L => (dedupCons none (wordsOfSeg st L)).reverse)
    with hR
  have hlslen : ls.length = n := by
    rw [hls]
    simp
  have hnwlp : n = st.wlp.length - 1 := by
    rw [hn, get_max_word_len]
  have hlsgetD : ∀ i, i < ls.length → ls.getD i 0 = 1 + i := by
    intro i hi
    rw [hls]
    exact range'_getD n 1 i (by omega)
  have hWFat : ∀ i, i < ls.length →
      SegmentWF st (1 + i) ∧ is_word_len_valid st (1 + i) = true := by
    intro i hi
    have hmem : (1 + i) ∈ ls := by
      rw [hls, List.mem_range'_1]
      omega
    have hv := hvalid _ hmem
    have hv' : 0 < 1 + i ∧ 1 + i < st.wlp.length := by
      simpa [is_word_len_valid] using hv
    exact ⟨hwf _ hv'.1 hv'.2, hv⟩
  have hSget : ∀ i, i < ls.length →
      S.getD i [] = dedupCons none (wordsOfSeg st (1 + i)) := by
    intro i hi
    rw [hS, getD_map_lt _ ls i 0 [] hi, hlsgetD i hi]
  have hRget : ∀ i, i < ls.length →
      R.getD i [] = (dedupCons none (wordsOfSeg st (1 + i))).reverse := by
    intro i hi
    rw [hR, getD_map_lt _ ls i 0 [] hi, hlsgetD i hi]
  have hSlen : S.length = ls.length := by
    rw [hS, List.length_map]
  have hRlen : R.length = ls.length := by
    rw [hR, List.length_map]
  have hsortedS : ∀ i, (S.getD i []).Pairwise
      (fun a b => lexLtB a b = true) := by
    intro i
    by_cases hi : i < ls.length
    · rw [hSget i hi]
      exact dedup_pairwise lexLtB lexLtB_irrefl lexLtB_trans
        lexLtB_trichotomy _ (wordsOfSeg_chain st _ (hWFat i hi).1)
    · rw [List.getD_eq_default _ _ (by omega)]
      exact List.Pairwise.nil
  have hdisjS : ∀ i j, i ≠ j → ∀ x ∈ S.getD i [], ∀ y ∈ S.getD j [],
      x ≠ y := by
    intro i j hij x hx y hy
    have hi : i < ls.length := by
      by_contra hc
      rw [List.getD_eq_default _ _ (by omega)] at hx
      cases hx
    have hj : j < ls.length := by
      by_contra hc
      rw [List.getD_eq_default _ _ (by omega)] at hy
      cases hy
    rw [hSget i hi] at hx
    rw [hSget j hj] at hy
    have hxl := dedup_word_length st (1 + i) (hWFat i hi).1 x hx
    have hyl := dedup_word_length st (1 + j) (hWFat j hj).1 y hy
    intro he
    rw [he] at hxl
    omega
  obtain ⟨hpF, hsF⟩ := kmerge_run lexLtB lexLtB_trans lexLtB_trichotomy
    S hsortedS hdisjS
  have hsortedR : ∀ i, (R.getD i []).Pairwise
      (fun a b => lexLtB b a = true) := by
    intro i
    by_cases hi : i < ls.length
    · rw [hRget i hi, List.pairwise_reverse]
      exact dedup_pairwise lexLtB lexLtB_irrefl lexLtB_trans
        lexLtB_trichotomy _ (wordsOfSeg_chain st _ (hWFat i hi).1)
    · rw [List.getD_eq_default _ _ (by omega)]
      exact List.Pairwise.nil
  have hdisjR : ∀ i j, i ≠ j → ∀ x ∈ R.getD i [], ∀ y ∈ R.getD j [],
      x ≠ y := by
    intro i j hij x hx y hy
    have hi : i < ls.length := by
      by_contra hc
      rw [List.getD_eq_default _ _ (by omega)] at hx
      cases hx
    have hj : j < ls.length := by
      by_contra hc
      rw [List.getD_eq_default _ _ (by omega)] at hy
      cases hy
    rw [hRget i hi, List.mem_reverse] at hx
    rw [hRget j hj, List.mem_reverse] at hy
    have hxl := dedup_word_length st (1 + i) (hWFat i hi).1 x hx
    have hyl := dedup_word_length st (1 + j) (hWFat j hj).1 y hy
    intro he
    rw [he] at hxl
    omega
  obtain ⟨hpR, hsR⟩ := kmerge_run (fun a b => lexLtB b a)
    (fun a b c h1 h2 => lexLtB_trans c b a h2 h1)
    (fun a b => by
      rcases lexLtB_trichotomy b a with h | h | h
      · exact Or.inl h
      · exact Or.inr (Or.inl h.symm)
      · exact Or.inr (Or.inr h))
    R hsortedR hdisjR
  have hforward : yield_words st false false =
      Except.ok (kmerge lexLtB S) := by
    rw [yield_words]
    simp only [Bool.false_eq_true, if_false]
    rw [← hn, ← hls, hgf]
  have hreverse : yield_words st true false =
      Except.ok (kmerge (fun a b => lexLtB b a) R) := by
    rw [yield_words]
    simp only [Bool.false_eq_true, if_false]
    simp only [if_true]
    rw [← hn, ← hls, hgr]
  have htotF : get_total_words st =
      Except.ok (kmerge lexLtB S).length := by
    rw [get_total_words, ← hn, ← hls, sumCounts_spec st hwf ls hvalid]
    congr 1
    rw [hpF.length_eq, List.length_flatten, hS, List.map_map]
    rfl
  have hmemb : ∀ L F w, yield_words_with_length st L false = Except.ok F →
      w ∈ F → w ∈ kmerge lexLtB S := by
    intro L F w hF hwF
    by_cases hLv : is_word_len_valid st L = true
    · have hL' : 0 < L ∧ L < st.wlp.length := by
        simpa [is_word_len_valid] using hLv
      have hLwf := hwf L hL'.1 hL'.2
      rw [(ywl_spec st L hLv hLwf).1] at hF
      obtain rfl : F = dedupCons none (wordsOfSeg st L) :=
        (Except.ok.inj hF).symm
      have hi : L - 1 < ls.length := by omega
      have h1i : 1 + (L - 1) = L := by omega
      have hw2 : w ∈ S.getD (L - 1) [] := by
        rw [hSget (L - 1) hi, h1i]
        exact hwF
      have hw3 : w ∈ S.flatten := by
        apply List.mem_flatten.mpr
        refine ⟨S.getD (L - 1) [], ?_, hw2⟩
        rw [List.getD_eq_getElem _ _ (by omega)]
        exact List.getElem_mem _
      exact hpF.mem_iff.mpr hw3
    · have hLv' : is_word_len_valid st L = false := by
        cases h : is_word_len_valid st L
        · rfl
        · exact absurd h hLv
      have hFnil : F = [] := by
        rw [yield_words_with_length, hLv'] at hF
        simpa using hF.symm
      rw [hFnil] at hwF
      cases hwF
  have hlenR : (kmerge (fun a b => lexLtB b a) R).length =
      (kmerge lexLtB S).length := by
    rw [hpR.length_eq, hpF.length_eq, List.length_flatten,
      List.length_flatten, hR, hS, List.map_map, List.map_map]
    have hco : (List.length ∘
        fun L => (dedupCons none (wordsOfSeg st L)).reverse) =
        (List.length ∘ fun L => dedupCons none (wordsOfSeg st L)) := by
      funext L
      simp
    rw [hco]
  exact ⟨kmerge lexLtB S, kmerge (fun a b => lexLtB b a) R, hforward,
    hsF, htotF, hmemb, hreverse, hsR, hlenR⟩

/-- Witness for C6 on a file with a one-byte segment (`"b"`, `"d"`) and a
two-byte segment (`"ac"`, `"bc"`). -/
theorem claim6_global_merge_witness :
    ∃ out rout : List (List ℕ),
      yield_words
        (⟨[0, 6, 14], [98, 0, 0, 100, 0, 0, 97, 99, 0, 0, 98, 99, 1, 5]⟩ :
          CEFRData) false false = Except.ok out ∧
      List.Pairwise lexLt out ∧
      get_total_words
        (⟨[0, 6, 14], [98, 0, 0, 100, 0, 0, 97, 99, 0, 0, 98, 99, 1, 5]⟩ :
          CEFRData) = Except.ok out.length ∧
      (∀ L F w, yield_words_with_length
          (⟨[0, 6, 14], [98, 0, 0, 100, 0, 0, 97, 99, 0, 0, 98, 99, 1, 5]⟩ :
            CEFRData) L false = Except.ok F →
        w ∈ F → w ∈ out) ∧
      yield_words
        (⟨[0, 6, 14], [98, 0, 0, 100, 0, 0, 97, 99, 0, 0, 98, 99, 1, 5]⟩ :
          CEFRData) true false = Except.ok rout ∧
      List.Pairwise (fun a b => lexLt b a) rout ∧
      rout.length = out.length :=
  claim6_global_merge
    ⟨[0, 6, 14], [98, 0, 0, 100, 0, 0, 97, 99, 0, 0, 98, 99, 1, 5]⟩
    (by decide)
